import Mathlib

/-!
University admission procedure: embedding of `main.go`.

The program reads applicant records, assigns applicants to departments in three
preference rounds under a per-department capacity, and writes one ranked roster
per department.

Modelling conventions.

* `float64` scores are modelled by exact rationals `ℚ` (the spec's "non-negative
  real numbers"); rounding, infinities and NaN are outside the embedding.
* `depName` is a Go string type, so it is `String` here; preferences read from the
  input file may be arbitrary strings.
* The global slice `allApplications` is passed explicitly as the pool.
* `sort.Slice` (Go standard library) is modelled by a stable insertion sort driven
  by the comparator of `applications.sort`.
* Indexing `app.departments[flow]` out of range panics in Go; here the result is
  `none`.
* Go compares strings bytewise; on UTF-8 text this is the code point order of
  `String`.
* Where a statement is about what the sorting routine may do with applicants the
  comparator leaves unordered, the routine is a parameter (`assignDepartmentsWith`);
  where it is about the order in which departments are visited, the order is a
  parameter (`assignDepartmentsIn`). Both reduce to the program for the insertion
  sort and the fixed department order.
-/

namespace Admission

/-- Go `type depName string`. -/
abbrev depName := String

def bioDepName : depName := "Biotech"
def chemDepName : depName := "Chemistry"
def comSciDepName : depName := "Engineering"
def mathDepName : depName := "Mathematics"
def physDepName : depName := "Physics"
def noneName : depName := "none"

/-- The fixed iteration order of the departments. -/
def departmentNames : List depName :=
  [bioDepName, chemDepName, comSciDepName, mathDepName, physDepName]

/-- Go `type name struct`. -/
structure name where
  first : String
  last : String
deriving DecidableEq, Repr

/-- Go `fmt.Sprintf("%s %s", name.first, name.last)`. -/
def name.getFullName (n : name) : String :=
  n.first ++ " " ++ n.last

/-- Go `type scores struct`. -/
structure scores where
  physics : ℚ
  chemistry : ℚ
  math : ℚ
  computerScience : ℚ
  admission : ℚ
deriving DecidableEq, Repr

/-- Go `type application struct`. -/
structure application where
  id : String
  name : name
  scores : scores
  departments : List depName
  assignedDepartment : depName
deriving DecidableEq, Repr

/-- Go `type applications []application`. -/
abbrev applications := List application

/-- Go `getBestScore`: the loop accumulates `sum` and `count`, the result is
`math.Max(admissionScore, sum/count)`. -/
def getBestScore (admissionScore : ℚ) (nums : List ℚ) : ℚ :=
  let acc := nums.foldl (fun (acc : ℚ × ℚ) num => (acc.1 + num, acc.2 + 1)) (0, 0)
  max admissionScore (acc.1 / acc.2)

/-- Go `(app application) getRelevantScore()`. -/
def application.getRelevantScore (app : application) : ℚ :=
  if app.assignedDepartment = bioDepName then
    getBestScore app.scores.admission [app.scores.chemistry, app.scores.physics]
  else if app.assignedDepartment = chemDepName then
    getBestScore app.scores.admission [app.scores.chemistry]
  else if app.assignedDepartment = comSciDepName then
    getBestScore app.scores.admission [app.scores.math, app.scores.computerScience]
  else if app.assignedDepartment = mathDepName then
    getBestScore app.scores.admission [app.scores.math]
  else if app.assignedDepartment = physDepName then
    getBestScore app.scores.admission [app.scores.math, app.scores.physics]
  else 0

/-- The closure passed to `sort.Slice` in `(apps applications) sort(name)`:
per department the two scores are compared first, the full names decide
when the scores are equal or the department is unknown. -/
def less (dep : depName) (appI appJ : application) : Bool :=
  let iScores := appI.scores
  let jScores := appJ.scores
  let byName : Bool := decide (appI.name.getFullName < appJ.name.getFullName)
  if dep = bioDepName then
    let iScore := getBestScore iScores.admission [iScores.physics, iScores.chemistry]
    let jScore := getBestScore jScores.admission [jScores.physics, jScores.chemistry]
    if iScore ≠ jScore then decide (iScore > jScore) else byName
  else if dep = chemDepName then
    let iScore := getBestScore iScores.admission [iScores.chemistry]
    let jScore := getBestScore jScores.admission [jScores.chemistry]
    if iScore ≠ jScore then decide (iScore > jScore) else byName
  else if dep = comSciDepName then
    let iScore := getBestScore iScores.admission [iScores.computerScience, iScores.math]
    let jScore := getBestScore jScores.admission [jScores.computerScience, jScores.math]
    if iScore ≠ jScore then decide (iScore > jScore) else byName
  else if dep = mathDepName then
    let iScore := getBestScore iScores.admission [iScores.math]
    let jScore := getBestScore jScores.admission [jScores.math]
    if iScore ≠ jScore then decide (iScore > jScore) else byName
  else if dep = physDepName then
    let iScore := getBestScore iScores.admission [iScores.physics, iScores.math]
    let jScore := getBestScore jScores.admission [jScores.physics, jScores.math]
    if iScore ≠ jScore then decide (iScore > jScore) else byName
  else byName

/-- One insertion step of the sort: `x` is placed in front of the first
element it is strictly less than. -/
def insertSlice {α : Type} (lt : α → α → Bool) (x : α) : List α → List α
  | [] => [x]
  | y :: ys => if lt x y then x :: y :: ys else y :: insertSlice lt x ys

/-- Model of Go `sort.Slice(data, lt)`: insertion sort, elements taken left to
right and inserted into the sorted prefix. This routine is stable; Go's `sort.Slice`
is not guaranteed to be, so it stands for one routine among those that return a
sorted permutation (`SortsBy`). Statements that depend on the order of applicants the
comparator leaves unordered are made for every such routine. -/
def sortSlice {α : Type} (lt : α → α → Bool) (data : List α) : List α :=
  data.foldl (fun acc x => insertSlice lt x acc) []

/-- Go `(apps applications) sort(name)`; the slice is sorted in place, the result
is the new content of the pool. -/
def applications.sort (apps : applications) (dep : depName) : applications :=
  sortSlice (less dep) apps

/-- Go `countAssigned(dep)` over the pool. -/
def countAssigned (pool : applications) (dep : depName) : Nat :=
  pool.foldl (fun count app => if app.assignedDepartment = dep then count + 1 else count) 0

/-- The `for index, app := range allApplications` loop of
`assignDepartmentsByFlow`: `done` is the part of the pool already visited (with
its updates), the second list is the part still to visit, so the live pool seen
by `countAssigned` is `done ++ app :: rest`. -/
def assignLoop (max : Int) (flow : Nat) (dep : depName) :
    applications → applications → Option applications
  | done, [] => some done
  | done, app :: rest =>
    match app.departments[flow]? with
    | none => none
    | some d =>
      if d ≠ dep then assignLoop max flow dep (done ++ [app]) rest
      else if d = dep ∧ app.assignedDepartment = noneName ∧
          (countAssigned (done ++ app :: rest) dep : Int) < max then
        assignLoop max flow dep (done ++ [{ app with assignedDepartment := dep }]) rest
      else assignLoop max flow dep (done ++ [app]) rest

/-- Body of the `for _, dep := range departmentNames` loop of
`assignDepartmentsByFlow`: sort the pool for `dep`, then walk it. -/
def departmentPass (max : Int) (flow : Nat) (pool : applications) (dep : depName) :
    Option applications :=
  assignLoop max flow dep [] (applications.sort pool dep)

/-- Go `assignDepartmentsByFlow(max, flow)`. -/
def assignDepartmentsByFlow (max : Int) (flow : Nat) (pool : applications) :
    Option applications :=
  departmentNames.foldlM (departmentPass max flow) pool

/-- Go `assignDepartments(max)`: flows 0, 1, 2 in order. -/
def assignDepartments (max : Int) (pool : applications) : Option applications :=
  (List.range 3).foldlM (fun pool flow => assignDepartmentsByFlow max flow pool) pool

/-- The arguments of `fmt.Sprintf("%s %.1f\n", ...)` in `writeToFile`: one
roster line, carrying the full name and the (unrounded) relevant score. -/
structure rosterLine where
  fullName : String
  score : ℚ
deriving DecidableEq, Repr

/-- Go `(app application) writeToFile(file)`: the line appended to the file. -/
def application.writeToFile (app : application) : rosterLine :=
  { fullName := app.name.getFullName, score := app.getRelevantScore }

/-- Go `fmt.Sprintf("%s.txt", strings.ToLower(name.toString()))`. -/
def fileName (dep : depName) : String :=
  dep.toLower ++ ".txt"

/-- The inner loop of `writeToFiles`: the lines written, in pool order, for the
applicants whose assignment is `dep`. -/
def rosterLines (apps : applications) (dep : depName) : List rosterLine :=
  (apps.filter (fun app => decide (app.assignedDepartment = dep))).map application.writeToFile

/-- Go `(apps applications) writeToFiles()`: per department the pool is sorted in
place and the file is created and filled. The state is the pool together with the
files written so far (name and content), in order of creation. -/
def writeToFiles (apps : applications) : applications × List (String × List rosterLine) :=
  departmentNames.foldl
    (fun st dep =>
      let sorted := applications.sort st.1 dep
      (sorted, st.2 ++ [(fileName dep, rosterLines sorted dep)]))
    (apps, [])

/-- The record built by `readFile` from one parsed input line. -/
def parsedApplication (firstName lastName : String)
    (physicsScore chemistryScore mathScore computerScienceScore admissionScore : ℚ)
    (department1 department2 department3 : depName) : application :=
  { id := ""
    name := { first := firstName, last := lastName }
    scores :=
      { physics := physicsScore
        chemistry := chemistryScore
        math := mathScore
        computerScience := computerScienceScore
        admission := admissionScore }
    departments := [department1, department2, department3]
    assignedDepartment := noneName }

/-! A sample input -/

/-- The applicant of the specification's scenario: math 90, physics 80, admission 70,
preferences Physics, Chemistry, Mathematics. -/
def applicantA : application :=
  parsedApplication "Ada" "Stone" 80 60 90 50 70 "Physics" "Chemistry" "Mathematics"

def applicantB : application :=
  parsedApplication "Ben" "Young" 95 70 95 60 65 "Physics" "Biotech" "Engineering"

def applicantC : application :=
  parsedApplication "Cleo" "Marsh" 40 88 55 77 60 "Chemistry" "Physics" "Biotech"

/-- A pool of three parsed applicants, in file order. -/
def examplePool : applications :=
  [applicantA, applicantB, applicantC]

/-! Vocabulary of the specification -/

/-- The subject subset averaged for a department, as the specification lists it. -/
def specSubset (dep : depName) (s : scores) : List ℚ :=
  if dep = bioDepName then [s.chemistry, s.physics]
  else if dep = chemDepName then [s.chemistry]
  else if dep = comSciDepName then [s.math, s.computerScience]
  else if dep = mathDepName then [s.math]
  else if dep = physDepName then [s.math, s.physics]
  else []

/-- The specification's department score: `max(admission, average(subset))`. -/
def specScore (dep : depName) (app : application) : ℚ :=
  max app.scores.admission ((specSubset dep app.scores).sum / (specSubset dep app.scores).length)

/-- Every applicant of the pool lists exactly three preferences. -/
def threePreferences (pool : applications) : Prop :=
  ∀ app ∈ pool, app.departments.length = 3

/-- Every applicant of the pool is unassigned. -/
def allUnassigned (pool : applications) : Prop :=
  ∀ app ∈ pool, app.assignedDepartment = noneName

/-- The capacity bound on the five departments. -/
def withinCapacity (max : Int) (pool : applications) : Prop :=
  ∀ d ∈ departmentNames, (countAssigned pool d : Int) ≤ max

/-- The fifteen department passes of `assignDepartments`, in execution order. -/
def schedule : List (Nat × depName) :=
  (List.range 3).flatMap (fun flow => departmentNames.map (fun dep => (flow, dep)))

/-- The pool after running the passes of a schedule prefix. -/
def runPasses (max : Int) (passes : List (Nat × depName)) (pool : applications) :
    Option applications :=
  passes.foldlM (fun pool p => departmentPass max p.1 pool p.2) pool

/-- An applicant record with the assignment field blanked: name, scores and
preferences only. -/
def application.record (app : application) : application :=
  { app with assignedDepartment := noneName }

/-- What one visit of the assignment loop may do to an applicant in flow `flow`
of department `dep`: nothing, or assign an unassigned applicant whose
preference at that index is `dep`. -/
def Assigns (flow : Nat) (dep : depName) (a b : application) : Prop :=
  b = a ∨ (a.assignedDepartment = noneName ∧ a.departments[flow]? = some dep ∧
    b = { a with assignedDepartment := dep })

/-- The life cycle of one applicant between two pool states: unchanged, or from
unassigned to one of the five departments among its preferences. -/
def Keeps (a b : application) : Prop :=
  b = a ∨ (a.assignedDepartment = noneName ∧ ∃ dep ∈ departmentNames,
    dep ∈ a.departments ∧ b = { a with assignedDepartment := dep })

/-- Pool `q` arises from pool `p` by re-ordering and by assignments of
unassigned applicants. -/
def Evolves (p q : applications) : Prop :=
  ∃ r : applications, r.Perm p ∧ List.Forall₂ Keeps r q

/-- The applicants whose lines `writeToFiles` emits, one list per department of
`deps` in order, starting from pool `apps`: the pool is sorted for the department
and the applicants assigned to it are taken in that order; the sorted pool is what
the next department starts from. -/
def rosterApplicants : applications → List depName → List applications
  | _, [] => []
  | apps, dep :: deps =>
    (applications.sort apps dep).filter (fun app => decide (app.assignedDepartment = dep)) ::
      rosterApplicants (applications.sort apps dep) deps

/-- The order of two roster lines: higher printed score first, equal scores by
ascending full name. -/
def lineOrdered (l₁ l₂ : rosterLine) : Prop :=
  l₁.score ≥ l₂.score ∧ (l₁.score = l₂.score → l₁.fullName ≤ l₂.fullName)

/-- The order the comparator of department `dep` puts on applicants: higher
department score first, equal scores by ascending full name. -/
def rankedBefore (dep : depName) (a b : application) : Prop :=
  specScore dep a ≥ specScore dep b ∧
    (specScore dep a = specScore dep b → a.name.getFullName ≤ b.name.getFullName)

/-- What a whole flow may do to one applicant: nothing, or assign an unassigned
applicant to the department at index `flow` of its own preference list, which is
then one of the five departments. -/
def FlowAssigns (flow : Nat) (a b : application) : Prop :=
  b = a ∨ (a.assignedDepartment = noneName ∧ ∃ dep ∈ departmentNames,
    a.departments[flow]? = some dep ∧ b = { a with assignedDepartment := dep })

/-- No two applicants of the pool have the same full name. -/
def distinctNames (pool : applications) : Prop :=
  (pool.map (fun app => app.name.getFullName)).Nodup

/-- Ben after receiving the Physics seat. -/
def applicantBPhysics : application :=
  { applicantB with assignedDepartment := physDepName }

/-- Ada after receiving a Chemistry seat. -/
def applicantAChemistry : application :=
  { applicantA with assignedDepartment := chemDepName }

/-- What `sort.Slice` guarantees for the comparator of each of the five departments:
the result is a permutation of the pool in which no applicant is `less` than an
earlier one. -/
def SortsBy (srt : applications → depName → applications) : Prop :=
  ∀ (apps : applications), ∀ dep ∈ departmentNames,
    (srt apps dep).Perm apps ∧ (srt apps dep).Pairwise (fun a b => less dep b a = false)

/-- The loops of `assignDepartments` with the library sorting routine left open:
`srt pool dep` stands for the pool after `allApplications.sort(dep)`. -/
def assignDepartmentsWith (srt : applications → depName → applications) (max : Int)
    (pool : applications) : Option applications :=
  (List.range 3).foldlM
    (fun pool flow =>
      departmentNames.foldlM (fun pool dep => assignLoop max flow dep [] (srt pool dep)) pool)
    pool

/-- The loop of `writeToFiles` with the library sorting routine left open. -/
def writeToFilesWith (srt : applications → depName → applications) (apps : applications) :
    applications × List (String × List rosterLine) :=
  departmentNames.foldl
    (fun st dep =>
      let sorted := srt st.1 dep
      (sorted, st.2 ++ [(fileName dep, rosterLines sorted dep)]))
    (apps, [])

/-- The passes of a schedule without the sorting step: only the assignment loops. -/
def runLoops (max : Int) (passes : List (Nat × depName)) (pool : applications) :
    Option applications :=
  passes.foldlM (fun pool p => assignLoop max p.1 p.2 [] pool) pool

/-- Two parsed applicants with the same full name and the same scores, and with
different second and third preferences. -/
def twinFirst : application :=
  parsedApplication "Sam" "Lee" 80 80 80 80 80 "Physics" "Chemistry" "Mathematics"

def twinSecond : application :=
  parsedApplication "Sam" "Lee" 80 80 80 80 80 "Physics" "Biotech" "Engineering"

/-- An applicant the pass of department `dep` in flow `flow` can take: unassigned, with
`dep` at index `flow` of its preference list. -/
def eligible (flow : Nat) (dep : depName) (app : application) : Bool :=
  decide (app.assignedDepartment = noneName ∧ app.departments[flow]? = some dep)

/-- The free seats of a department: `max - countAssigned`, taken as 0 if negative. -/
def remaining (max : Int) (pool : applications) (dep : depName) : Nat :=
  (max - (countAssigned pool dep : Int)).toNat

/-- The eligible applicants of a pass, listed in the order of the pool sorted by the
comparator of the department. -/
def eligibleRanked (flow : Nat) (dep : depName) (pool : applications) : applications :=
  (applications.sort pool dep).filter (eligible flow dep)

/-- Top-`r` selection as the specification words it: walking a ranked list, the first
`r` eligible applicants are assigned to `dep`, every other applicant is left as it
is. -/
def assignBest (flow : Nat) (dep : depName) : Nat → applications → applications
  | 0, l => l
  | _ + 1, [] => []
  | r + 1, app :: rest =>
    if eligible flow dep app then
      { app with assignedDepartment := dep } :: assignBest flow dep r rest
    else app :: assignBest flow dep (r + 1) rest

/-- State of department `dep` before its pass of flow 0: nobody is assigned to it and
everybody who lists it first is still unassigned. -/
def firstChoiceOpen (dep : depName) (pool : applications) : Prop :=
  ∀ a ∈ pool, a.assignedDepartment ≠ dep ∧
    (a.departments[0]? = some dep → a.assignedDepartment = noneName)

/-- State of department `dep` after its pass of flow 0: if somebody who lists it
first does not hold a seat in it, the department holds exactly `max` applicants, all
of whom list it first and are ranked at or before that applicant. -/
def firstChoiceSettled (max : Int) (dep : depName) (pool : applications) : Prop :=
  ∀ a ∈ pool, a.departments[0]? = some dep → a.assignedDepartment ≠ dep →
    (countAssigned pool dep : Int) = max ∧
      ∀ x ∈ pool, x.assignedDepartment = dep →
        x.departments[0]? = some dep ∧ rankedBefore dep x a

/-- Go `assignDepartmentsByFlow(max, flow)` with the departments visited in the order
`order` instead of the fixed order of `departmentNames`. -/
def assignDepartmentsByFlowIn (order : List depName) (max : Int) (flow : Nat)
    (pool : applications) : Option applications :=
  order.foldlM (departmentPass max flow) pool

/-- Go `assignDepartments(max)` where flow `k` visits the departments in the order
`orders k`. -/
def assignDepartmentsIn (orders : Nat → List depName) (max : Int) (pool : applications) :
    Option applications :=
  (List.range 3).foldlM
    (fun pool flow => assignDepartmentsByFlowIn (orders flow) max flow pool) pool

/-- The pool a department pass returns when no lookup fails: the top selection on the
sorted pool with the free seats counted at the start of the pass. -/
def passResult (max : Int) (flow : Nat) (dep : depName) (pool : applications) : applications :=
  assignBest flow dep (remaining max pool dep) (applications.sort pool dep)

/-- The pool a flow returns when no lookup fails, for a given order of visit. -/
def flowResult (max : Int) (flow : Nat) (order : List depName) (pool : applications) :
    applications :=
  order.foldl (fun pool dep => passResult max flow dep pool) pool

/-- The eligible applicants after a pass that has `r` free seats: ranked, the best `r`
assigned to `dep`, the others as they were. -/
def selectBest (dep : depName) (r : Nat) (candidates : applications) : applications :=
  ((applications.sort candidates dep).take r).map
      (fun a => { a with assignedDepartment := dep }) ++
    (applications.sort candidates dep).drop r


/-! Scores and the comparator -/

theorem getBestScore_one (a x : ℚ) : getBestScore a [x] = max a x := by
  simp [getBestScore]

theorem getBestScore_two (a x y : ℚ) : getBestScore a [x, y] = max a ((x + y) / 2) := by
  simp [getBestScore]; norm_num

theorem mem_departmentNames {d : depName} :
    d ∈ departmentNames ↔
      d = bioDepName ∨ d = chemDepName ∨ d = comSciDepName ∨ d = mathDepName ∨ d = physDepName := by
  simp [departmentNames]

theorem ne_noneName_of_mem {d : depName} (h : d ∈ departmentNames) : d ≠ noneName := by
  rcases mem_departmentNames.mp h with h | h | h | h | h <;> subst h <;> decide

theorem less_eq {dep : depName} (hd : dep ∈ departmentNames) (a b : application) :
    less dep a b =
      if specScore dep a ≠ specScore dep b then decide (specScore dep a > specScore dep b)
      else decide (a.name.getFullName < b.name.getFullName) := by
  rcases mem_departmentNames.mp hd with h | h | h | h | h <;> subst h
  · have key : ∀ c : application,
        getBestScore c.scores.admission [c.scores.physics, c.scores.chemistry] =
          specScore bioDepName c := by
      intro c; simp [specScore, specSubset, getBestScore_two, add_comm]
    simp only [less, key, if_true]
  · have n1 : chemDepName ≠ bioDepName := by decide
    have key : ∀ c : application,
        getBestScore c.scores.admission [c.scores.chemistry] = specScore chemDepName c := by
      intro c; simp [specScore, specSubset, getBestScore_one, n1]
    simp only [less, key, if_true, if_neg n1]
  · have n1 : comSciDepName ≠ bioDepName := by decide
    have n2 : comSciDepName ≠ chemDepName := by decide
    have key : ∀ c : application,
        getBestScore c.scores.admission [c.scores.computerScience, c.scores.math] =
          specScore comSciDepName c := by
      intro c; simp [specScore, specSubset, getBestScore_two, add_comm, n1, n2]
    simp only [less, key, if_true, if_neg n1, if_neg n2]
  · have n1 : mathDepName ≠ bioDepName := by decide
    have n2 : mathDepName ≠ chemDepName := by decide
    have n3 : mathDepName ≠ comSciDepName := by decide
    have key : ∀ c : application,
        getBestScore c.scores.admission [c.scores.math] = specScore mathDepName c := by
      intro c; simp [specScore, specSubset, getBestScore_one, n1, n2, n3]
    simp only [less, key, if_true, if_neg n1, if_neg n2, if_neg n3]
  · have n1 : physDepName ≠ bioDepName := by decide
    have n2 : physDepName ≠ chemDepName := by decide
    have n3 : physDepName ≠ comSciDepName := by decide
    have n4 : physDepName ≠ mathDepName := by decide
    have key : ∀ c : application,
        getBestScore c.scores.admission [c.scores.physics, c.scores.math] =
          specScore physDepName c := by
      intro c; simp [specScore, specSubset, getBestScore_two, add_comm, n1, n2, n3, n4]
    simp only [less, key, if_true, if_neg n1, if_neg n2, if_neg n3, if_neg n4]

/-- The comparator is false exactly when the second applicant is ranked at or
before the first. -/
theorem less_eq_false_iff {dep : depName} (hd : dep ∈ departmentNames) (a b : application) :
    less dep a b = false ↔ rankedBefore dep b a := by
  rw [less_eq hd, rankedBefore]
  by_cases h : specScore dep a = specScore dep b
  · simp [h, not_lt]
  · simp only [ne_eq, h, not_false_eq_true, if_true, decide_eq_false_iff_not, not_lt, gt_iff_lt,
      ge_iff_le]
    constructor
    · intro hle
      exact ⟨hle, fun he => absurd he.symm h⟩
    · intro hle
      exact hle.1

theorem rankedBefore_trans {dep : depName} {a b c : application}
    (hab : rankedBefore dep a b) (hbc : rankedBefore dep b c) : rankedBefore dep a c := by
  obtain ⟨h1, h2⟩ := hab
  obtain ⟨h3, h4⟩ := hbc
  refine ⟨le_trans h3 h1, fun he => ?_⟩
  have e1 : specScore dep a = specScore dep b := le_antisymm (he ▸ h3) h1
  have e2 : specScore dep b = specScore dep c := e1.symm.trans he
  exact le_trans (h2 e1) (h4 e2)

theorem rankedBefore_of_less {dep : depName} (hd : dep ∈ departmentNames) {a b : application}
    (h : less dep a b = true) : rankedBefore dep a b := by
  rw [less_eq hd] at h
  rw [rankedBefore]
  by_cases he : specScore dep a = specScore dep b
  · simp only [ne_eq, he, not_true_eq_false, if_false, decide_eq_true_eq] at h
    exact ⟨le_of_eq he.symm, fun _ => le_of_lt h⟩
  · simp only [ne_eq, he, not_false_eq_true, if_true, decide_eq_true_eq, gt_iff_lt] at h
    exact ⟨le_of_lt h, fun e => absurd e he⟩


/-! The sorting routine -/

theorem insertSlice_perm {α : Type} (lt : α → α → Bool) (x : α) (l : List α) :
    (insertSlice lt x l).Perm (x :: l) := by
  induction l with
  | nil => simp [insertSlice]
  | cons y ys ih =>
    simp only [insertSlice]
    split
    · exact List.Perm.refl _
    · exact (List.Perm.cons y ih).trans (List.Perm.swap x y ys)

theorem foldl_insertSlice_perm {α : Type} (lt : α → α → Bool) (data acc : List α) :
    (data.foldl (fun acc x => insertSlice lt x acc) acc).Perm (acc ++ data) := by
  induction data generalizing acc with
  | nil => simp
  | cons x xs ih =>
    simp only [List.foldl_cons]
    refine (ih _).trans ?_
    refine ((insertSlice_perm lt x acc).append_right xs).trans ?_
    exact (List.perm_middle).symm

theorem sortSlice_perm {α : Type} (lt : α → α → Bool) (data : List α) :
    (sortSlice lt data).Perm data := by
  simpa [sortSlice] using foldl_insertSlice_perm lt data []

theorem insertSlice_pairwise {α : Type} (lt : α → α → Bool) (R : α → α → Prop)
    (hfalse : ∀ a b, lt a b = false → R b a) (htrue : ∀ a b, lt a b = true → R a b)
    (htrans : ∀ a b c, R a b → R b c → R a c) (x : α) (l : List α)
    (hl : l.Pairwise R) : (insertSlice lt x l).Pairwise R := by
  induction l with
  | nil => simp [insertSlice]
  | cons y ys ih =>
    simp only [insertSlice]
    rw [List.pairwise_cons] at hl
    split
    next h =>
      refine List.Pairwise.cons ?_ (List.Pairwise.cons hl.1 hl.2)
      intro z hz
      rcases List.mem_cons.mp hz with rfl | hz
      · exact htrue _ _ h
      · exact htrans _ _ _ (htrue _ _ h) (hl.1 z hz)
    next h =>
      refine List.Pairwise.cons ?_ (ih hl.2)
      intro z hz
      rcases List.mem_cons.mp ((insertSlice_perm lt x ys).subset hz) with rfl | hz
      · exact hfalse _ _ (by simpa using h)
      · exact hl.1 z hz

theorem sortSlice_pairwise {α : Type} (lt : α → α → Bool) (R : α → α → Prop)
    (hfalse : ∀ a b, lt a b = false → R b a) (htrue : ∀ a b, lt a b = true → R a b)
    (htrans : ∀ a b c, R a b → R b c → R a c) (data : List α) :
    (sortSlice lt data).Pairwise R := by
  have key : ∀ (data acc : List α), acc.Pairwise R →
      (data.foldl (fun acc x => insertSlice lt x acc) acc).Pairwise R := by
    intro data
    induction data with
    | nil => intro acc h; simpa using h
    | cons x xs ih =>
      intro acc h
      exact ih _ (insertSlice_pairwise lt R hfalse htrue htrans x acc h)
  exact key data [] List.Pairwise.nil

theorem sort_perm (apps : applications) (dep : depName) :
    (applications.sort apps dep).Perm apps :=
  sortSlice_perm _ _

theorem sort_pairwise (apps : applications) {dep : depName} (hd : dep ∈ departmentNames) :
    (applications.sort apps dep).Pairwise (rankedBefore dep) :=
  sortSlice_pairwise (less dep) (rankedBefore dep)
    (fun a b h => (less_eq_false_iff hd a b).mp h)
    (fun _ _ h => rankedBefore_of_less hd h)
    (fun _ _ _ => rankedBefore_trans) apps

theorem mem_sort {apps : applications} {dep : depName} {a : application} :
    a ∈ applications.sort apps dep ↔ a ∈ apps :=
  (sort_perm apps dep).mem_iff


/-! Counting and the assignment loop -/

theorem countAssigned_eq_countP (pool : applications) (dep : depName) :
    countAssigned pool dep = pool.countP (fun a => decide (a.assignedDepartment = dep)) := by
  have key : ∀ (pool : applications) (n : Nat),
      pool.foldl (fun count app => if app.assignedDepartment = dep then count + 1 else count) n =
        n + pool.countP (fun a => decide (a.assignedDepartment = dep)) := by
    intro pool
    induction pool with
    | nil => intro n; simp
    | cons a l ih =>
      intro n
      simp only [List.foldl_cons, ih, List.countP_cons]
      by_cases h : a.assignedDepartment = dep
      · simp [h]; omega
      · simp [h]
  simpa [countAssigned] using key pool 0

theorem countAssigned_nil (dep : depName) : countAssigned [] dep = 0 := rfl

theorem countAssigned_append (p q : applications) (dep : depName) :
    countAssigned (p ++ q) dep = countAssigned p dep + countAssigned q dep := by
  simp [countAssigned_eq_countP, List.countP_append]

theorem countAssigned_cons (a : application) (p : applications) (dep : depName) :
    countAssigned (a :: p) dep =
      (if a.assignedDepartment = dep then 1 else 0) + countAssigned p dep := by
  simp only [countAssigned_eq_countP, List.countP_cons]
  by_cases h : a.assignedDepartment = dep
  · simp [h]; omega
  · simp [h]

theorem countAssigned_perm {p q : applications} (h : p.Perm q) (dep : depName) :
    countAssigned p dep = countAssigned q dep := by
  simp only [countAssigned_eq_countP]
  exact h.countP_eq _

theorem countAssigned_eq_length_filter (pool : applications) (dep : depName) :
    countAssigned pool dep =
      (pool.filter (fun a => decide (a.assignedDepartment = dep))).length := by
  rw [countAssigned_eq_countP, List.countP_eq_length_filter]

theorem countAssigned_eq_zero {pool : applications} {dep : depName}
    (h : ∀ a ∈ pool, a.assignedDepartment ≠ dep) : countAssigned pool dep = 0 := by
  rw [countAssigned_eq_countP, List.countP_eq_zero]
  intro a ha
  simpa using h a ha

/-- A visit never lowers the count of the department being filled. -/
theorem assigns_count_le {flow : Nat} {dep : depName} {l l' : applications}
    (h : List.Forall₂ (Assigns flow dep) l l') :
    countAssigned l dep ≤ countAssigned l' dep := by
  induction h with
  | nil => exact le_refl _
  | cons hab _ ih =>
    rename_i a b l l'
    rw [countAssigned_cons, countAssigned_cons]
    rcases hab with rfl | ⟨_, _, rfl⟩
    · omega
    · simp only [if_true]
      split <;> omega

/-- A visit leaves the count of every other department unchanged. -/
theorem Assigns.count_eq {flow : Nat} {dep other : depName} {l l' : applications}
    (h : List.Forall₂ (Assigns flow dep) l l') (h1 : other ≠ dep) (h2 : other ≠ noneName) :
    countAssigned l' other = countAssigned l other := by
  induction h with
  | nil => rfl
  | cons hab _ ih =>
    rename_i a b l l'
    rw [countAssigned_cons, countAssigned_cons, ih]
    rcases hab with rfl | ⟨hn, _, rfl⟩
    · rfl
    · simp only [hn, if_neg (Ne.symm h1), if_neg (Ne.symm h2)]

/-- The assignment loop, started on a pool whose applicants all have a preference at
index `flow`, returns; it changes the unvisited part only by `Assigns`, keeps the
count of `dep` within a capacity that was respected before, and leaves an eligible
applicant unassigned only when the department is full at the end. -/
theorem assignLoop_spec (max : Int) (flow : Nat) (dep : depName) :
    ∀ (rest done : applications), (∀ a ∈ rest, flow < a.departments.length) →
      ∃ rest', assignLoop max flow dep done rest = some (done ++ rest') ∧
        List.Forall₂ (Assigns flow dep) rest rest' ∧
        ((countAssigned (done ++ rest) dep : Int) ≤ max →
          (countAssigned (done ++ rest') dep : Int) ≤ max) ∧
        (dep ≠ noneName → ∀ b ∈ rest', b.assignedDepartment = noneName →
          b.departments[flow]? = some dep → max ≤ (countAssigned (done ++ rest') dep : Int)) := by
  intro rest
  induction rest with
  | nil =>
    intro done _
    exact ⟨[], by simp [assignLoop], List.Forall₂.nil, fun h => h, fun _ b hb => by simp at hb⟩
  | cons app rest ih =>
    intro done hlen
    have hlen' : ∀ a ∈ rest, flow < a.departments.length :=
      fun a ha => hlen a (List.mem_cons_of_mem _ ha)
    have happ : flow < app.departments.length := hlen app (List.mem_cons_self _ _)
    have hget : app.departments[flow]? = some app.departments[flow] :=
      List.getElem?_eq_getElem happ
    rw [assignLoop, hget]
    simp only
    by_cases hd : app.departments[flow] = dep
    · by_cases hc : app.assignedDepartment = noneName ∧
          (countAssigned (done ++ app :: rest) dep : Int) < max
      · -- the applicant is assigned
        obtain ⟨rest', hrun, hrel, hcap, hfull⟩ :=
          ih (done ++ [{ app with assignedDepartment := dep }]) hlen'
        refine ⟨{ app with assignedDepartment := dep } :: rest', ?_, ?_, ?_, ?_⟩
        · rw [if_neg (not_not.mpr hd), if_pos ⟨hd, hc⟩, hrun]
          simp
        · exact List.Forall₂.cons (Or.inr ⟨hc.1, hd ▸ hget, rfl⟩) hrel
        · intro _
          have h1 : (countAssigned ((done ++ [{ app with assignedDepartment := dep }]) ++ rest) dep
              : Int) ≤ max := by
            have h2 := hc.2
            simp only [countAssigned_append, countAssigned_cons, countAssigned_nil] at h2 ⊢
            simp only [if_true]
            split at h2 <;> push_cast at h2 ⊢ <;> omega
          have h3 := hcap h1
          simpa [List.append_assoc] using h3
        · intro hne b hb hnone hpref
          rcases List.mem_cons.mp hb with rfl | hb
          · exact absurd hnone hne
          · have := hfull hne b hb hnone hpref
            simpa [List.append_assoc] using this
      · -- eligible by preference, but already assigned or no seat left
        obtain ⟨rest', hrun, hrel, hcap, hfull⟩ := ih (done ++ [app]) hlen'
        refine ⟨app :: rest', ?_, ?_, ?_, ?_⟩
        · rw [if_neg (not_not.mpr hd), if_neg (fun h => hc h.2), hrun]
          simp
        · exact List.Forall₂.cons (Or.inl rfl) hrel
        · intro h
          have := hcap (by simpa [List.append_assoc] using h)
          simpa [List.append_assoc] using this
        · intro hne b hb hnone hpref
          rcases List.mem_cons.mp hb with rfl | hb
          · have hge : max ≤ (countAssigned (done ++ b :: rest) dep : Int) := by
              by_contra hlt
              exact hc ⟨hnone, not_le.mp hlt⟩
            have hmono := assigns_count_le hrel
            simp only [countAssigned_append, countAssigned_cons] at hge ⊢
            push_cast at hge ⊢
            omega
          · have := hfull hne b hb hnone hpref
            simpa [List.append_assoc] using this
    · -- the preference at this index is another department
      obtain ⟨rest', hrun, hrel, hcap, hfull⟩ := ih (done ++ [app]) hlen'
      refine ⟨app :: rest', ?_, ?_, ?_, ?_⟩
      · rw [if_pos hd, hrun]
        simp
      · exact List.Forall₂.cons (Or.inl rfl) hrel
      · intro h
        have := hcap (by simpa [List.append_assoc] using h)
        simpa [List.append_assoc] using this
      · intro hne b hb hnone hpref
        rcases List.mem_cons.mp hb with rfl | hb
        · rw [hget] at hpref
          exact absurd (Option.some.inj hpref) hd
        · have := hfull hne b hb hnone hpref
          simpa [List.append_assoc] using this


/-! One department pass and the relations between pool states -/

theorem keeps_refl (a : application) : Keeps a a := Or.inl rfl

theorem keeps_trans {a b c : application} (hab : Keeps a b) (hbc : Keeps b c) : Keeps a c := by
  rcases hab with rfl | ⟨hn, d, hd, hmem, rfl⟩
  · exact hbc
  · rcases hbc with rfl | ⟨hn', _⟩
    · exact Or.inr ⟨hn, d, hd, hmem, rfl⟩
    · exact absurd hn' (ne_noneName_of_mem hd)

theorem Assigns.keeps {flow : Nat} {dep : depName} (hd : dep ∈ departmentNames)
    {a b : application} (h : Assigns flow dep a b) : Keeps a b := by
  rcases h with rfl | ⟨hn, hpref, rfl⟩
  · exact Or.inl rfl
  · exact Or.inr ⟨hn, dep, hd, List.getElem?_mem hpref, rfl⟩

theorem Keeps.record_eq {a b : application} (h : Keeps a b) : b.record = a.record := by
  rcases h with rfl | ⟨_, d, _, _, rfl⟩ <;> rfl

theorem Keeps.departments_eq {a b : application} (h : Keeps a b) :
    b.departments = a.departments := by
  rcases h with rfl | ⟨_, d, _, _, rfl⟩ <;> rfl

theorem Keeps.assigned_eq {a b : application} (h : Keeps a b)
    (ha : a.assignedDepartment ≠ noneName) : b = a := by
  rcases h with rfl | ⟨hn, _⟩
  · rfl
  · exact absurd hn ha

theorem forall₂_keeps_trans {l₁ l₂ l₃ : applications} (h12 : List.Forall₂ Keeps l₁ l₂)
    (h23 : List.Forall₂ Keeps l₂ l₃) : List.Forall₂ Keeps l₁ l₃ := by
  induction h12 generalizing l₃ with
  | nil => cases h23; exact List.Forall₂.nil
  | cons hab _ ih =>
    cases h23 with
    | cons hbc hrest => exact List.Forall₂.cons (keeps_trans hab hbc) (ih hrest)

theorem evolves_refl (p : applications) : Evolves p p :=
  ⟨p, List.Perm.refl p, List.forall₂_same.mpr (fun a _ => keeps_refl a)⟩

theorem evolves_trans {p q t : applications} (hpq : Evolves p q) (hqr : Evolves q t) :
    Evolves p t := by
  obtain ⟨u, hup, huq⟩ := hpq
  obtain ⟨v, hvq, hvr⟩ := hqr
  -- move the permutation of `q` in front of the pointwise relation
  have hcomp : Relation.Comp (List.Forall₂ Keeps) List.Perm u v := ⟨q, huq, hvq.symm⟩
  rw [List.forall₂_comp_perm_eq_perm_comp_forall₂] at hcomp
  obtain ⟨w, huw, hwv⟩ := hcomp
  refine ⟨w, huw.symm.trans hup, ?_⟩
  exact forall₂_keeps_trans hwv hvr

theorem Evolves.mem {p q : applications} (h : Evolves p q) {b : application} (hb : b ∈ q) :
    ∃ a ∈ p, Keeps a b := by
  obtain ⟨r, hr, hrel⟩ := h
  have key : ∀ {l l' : applications}, List.Forall₂ Keeps l l' → b ∈ l' → ∃ a ∈ l, Keeps a b := by
    intro l l' hll
    induction hll with
    | nil => intro hb; simp at hb
    | cons hab _ ih =>
      intro hb
      rcases List.mem_cons.mp hb with rfl | hb
      · exact ⟨_, List.mem_cons_self _ _, hab⟩
      · obtain ⟨a, ha, hk⟩ := ih hb
        exact ⟨a, List.mem_cons_of_mem _ ha, hk⟩
  obtain ⟨a, ha, hk⟩ := key hrel hb
  exact ⟨a, hr.subset ha, hk⟩

theorem Evolves.threePreferences {p q : applications} (h : Evolves p q)
    (hp : threePreferences p) : threePreferences q := by
  intro b hb
  obtain ⟨a, ha, hk⟩ := h.mem hb
  rw [hk.departments_eq]
  exact hp a ha

theorem keeps_count_le {l l' : applications} (h : List.Forall₂ Keeps l l') {dep : depName}
    (hd : dep ≠ noneName) : countAssigned l dep ≤ countAssigned l' dep := by
  induction h with
  | nil => exact le_refl _
  | cons hab _ ih =>
    rename_i a b l l'
    rw [countAssigned_cons, countAssigned_cons]
    rcases hab with rfl | ⟨hn, _, _, _, rfl⟩
    · omega
    · rw [hn, if_neg (Ne.symm hd)]
      omega

theorem evolves_count_le {p q : applications} (h : Evolves p q) {dep : depName}
    (hd : dep ≠ noneName) : countAssigned p dep ≤ countAssigned q dep := by
  obtain ⟨r, hr, hrel⟩ := h
  rw [← countAssigned_perm hr dep]
  exact keeps_count_le hrel hd

/-- What a department pass guarantees. -/
theorem departmentPass_spec (max : Int) {flow : Nat} (dep : depName) {pool : applications}
    (hp : ∀ a ∈ pool, flow < a.departments.length) :
    ∃ pool', departmentPass max flow pool dep = some pool' ∧
      List.Forall₂ (Assigns flow dep) (applications.sort pool dep) pool' ∧
      ((countAssigned pool dep : Int) ≤ max → (countAssigned pool' dep : Int) ≤ max) ∧
      (dep ≠ noneName → ∀ b ∈ pool', b.assignedDepartment = noneName →
        b.departments[flow]? = some dep → max ≤ (countAssigned pool' dep : Int)) := by
  obtain ⟨rest', hrun, hrel, hcap, hfull⟩ :=
    assignLoop_spec max flow dep (applications.sort pool dep) []
      (fun a ha => hp a (mem_sort.mp ha))
  refine ⟨rest', by simpa [departmentPass] using hrun, hrel, ?_, ?_⟩
  · intro h
    have := hcap (by simpa [countAssigned_perm (sort_perm pool dep) dep] using h)
    simpa using this
  · intro hne b hb hnone hpref
    simpa using hfull hne b hb hnone hpref

theorem flow_lt_of_three {pool : applications} (hp : threePreferences pool) {flow : Nat}
    (hf : flow < 3) : ∀ a ∈ pool, flow < a.departments.length := by
  intro a ha
  rw [hp a ha]
  exact hf

theorem evolves_of_pass {flow : Nat} {dep : depName} (hd : dep ∈ departmentNames)
    {pool pool' : applications}
    (h : List.Forall₂ (Assigns flow dep) (applications.sort pool dep) pool') :
    Evolves pool pool' :=
  ⟨applications.sort pool dep, sort_perm pool dep, h.imp (fun _ _ hab => hab.keeps hd)⟩

/-! Folding passes -/

theorem foldlM_invariant {σ α : Type} (f : σ → α → Option σ) (Inv : σ → Prop) (l : List α)
    (h : ∀ s, ∀ x ∈ l, Inv s → ∃ s', f s x = some s' ∧ Inv s') :
    ∀ s, Inv s → ∃ s', l.foldlM f s = some s' ∧ Inv s' := by
  induction l with
  | nil => intro s hs; exact ⟨s, rfl, hs⟩
  | cons x xs ih =>
    intro s hs
    obtain ⟨s1, h1, hs1⟩ := h s x (List.mem_cons_self _ _) hs
    obtain ⟨s2, h2, hs2⟩ :=
      ih (fun s y hy => h s y (List.mem_cons_of_mem _ hy)) s1 hs1
    exact ⟨s2, by simp [List.foldlM_cons, h1, h2], hs2⟩

theorem foldlM_establish {σ α : Type} (f : σ → α → Option σ) (Inv : σ → Prop)
    (Q : α → σ → Prop) (l : List α)
    (h : ∀ s, ∀ x ∈ l, Inv s →
      ∃ s', f s x = some s' ∧ Inv s' ∧ Q x s' ∧ ∀ y, Q y s → Q y s') :
    ∀ s, Inv s → ∃ s', l.foldlM f s = some s' ∧ Inv s' ∧ ∀ x ∈ l, Q x s' := by
  have key : ∀ (l : List α),
      (∀ s, ∀ x ∈ l, Inv s → ∃ s', f s x = some s' ∧ Inv s' ∧ Q x s' ∧ ∀ y, Q y s → Q y s') →
      ∀ (pre : List α) s, Inv s → (∀ y ∈ pre, Q y s) →
        ∃ s', l.foldlM f s = some s' ∧ Inv s' ∧ ∀ x ∈ pre ++ l, Q x s' := by
    intro l
    induction l with
    | nil =>
      intro _ pre s hs hpre
      exact ⟨s, rfl, hs, by simpa using hpre⟩
    | cons x xs ih =>
      intro h pre s hs hpre
      obtain ⟨s1, h1, hs1, hq, hkeep⟩ := h s x (List.mem_cons_self _ _) hs
      obtain ⟨s2, h2, hs2, hall⟩ :=
        ih (fun s y hy => h s y (List.mem_cons_of_mem _ hy)) (pre ++ [x]) s1 hs1
          (by
            intro y hy
            rcases List.mem_append.mp hy with hy | hy
            · exact hkeep y (hpre y hy)
            · rw [List.mem_singleton.mp hy]
              exact hq)
      refine ⟨s2, by simp [List.foldlM_cons, h1, h2], hs2, ?_⟩
      intro y hy
      exact hall y (by simpa using hy)
  intro s hs
  obtain ⟨s', h1, h2, h3⟩ := key l h [] s hs (by simp)
  exact ⟨s', h1, h2, by simpa using h3⟩

theorem schedule_eq :
    schedule =
      [(0, bioDepName), (0, chemDepName), (0, comSciDepName), (0, mathDepName), (0, physDepName),
       (1, bioDepName), (1, chemDepName), (1, comSciDepName), (1, mathDepName), (1, physDepName),
       (2, bioDepName), (2, chemDepName), (2, comSciDepName), (2, mathDepName), (2, physDepName)] := by
  rfl

/-- The nested loops of `assignDepartments` run the fifteen passes of the schedule. -/
theorem assignDepartments_eq_runPasses (max : Int) (pool : applications) :
    assignDepartments max pool = runPasses max schedule pool := by
  rw [schedule_eq]
  simp only [assignDepartments, assignDepartmentsByFlow, runPasses, departmentNames,
    show List.range 3 = [0, 1, 2] from rfl, List.foldlM_cons, List.foldlM_nil, bind_assoc,
    pure_bind]


/-! Running a schedule of passes -/

theorem mem_schedule_iff {p : Nat × depName} :
    p ∈ schedule ↔ p.1 < 3 ∧ p.2 ∈ departmentNames := by
  obtain ⟨k, d⟩ := p
  simp only [schedule, List.mem_flatMap, List.mem_range, List.mem_map, Prod.mk.injEq]
  constructor
  · rintro ⟨k', hk, d', hd, rfl, rfl⟩
    exact ⟨hk, hd⟩
  · rintro ⟨hk, hd⟩
    exact ⟨k, hk, d, hd, rfl, rfl⟩

theorem runPasses_append (max : Int) (p q : List (Nat × depName)) (pool : applications) :
    runPasses max (p ++ q) pool = (runPasses max p pool).bind (runPasses max q) := by
  simp [runPasses, List.foldlM_append]

/-- A pass of the schedule returns, and its result evolves from its input. -/
theorem pass_evolves (max : Int) {p : Nat × depName} (hp : p.1 < 3 ∧ p.2 ∈ departmentNames)
    {pool : applications} (h3 : threePreferences pool) :
    ∃ pool', departmentPass max p.1 pool p.2 = some pool' ∧ threePreferences pool' ∧
      Evolves pool pool' ∧
      List.Forall₂ (Assigns p.1 p.2) (applications.sort pool p.2) pool' := by
  obtain ⟨pool', hrun, hrel, -, -⟩ :=
    departmentPass_spec max p.2 (flow_lt_of_three h3 hp.1)
  have hev := evolves_of_pass hp.2 hrel
  exact ⟨pool', hrun, hev.threePreferences h3, hev, hrel⟩

/-- Any list of schedule passes returns, and the result evolves from the input. -/
theorem runPasses_evolves (max : Int) (passes : List (Nat × depName))
    (hpasses : ∀ p ∈ passes, p.1 < 3 ∧ p.2 ∈ departmentNames)
    {pool : applications} (h3 : threePreferences pool) :
    ∃ out, runPasses max passes pool = some out ∧ threePreferences out ∧ Evolves pool out := by
  have h := foldlM_invariant (fun pool p => departmentPass max p.1 pool p.2)
    (fun s => threePreferences s ∧ Evolves pool s) passes
    (by
      intro s p hp hs
      obtain ⟨s', hrun, h3', hev, -⟩ := pass_evolves max (hpasses p hp) hs.1
      exact ⟨s', hrun, h3', evolves_trans hs.2 hev⟩)
    pool ⟨h3, evolves_refl pool⟩
  exact h

theorem mem_take_schedule {n : Nat} {p : Nat × depName} (h : p ∈ schedule.take n) :
    p.1 < 3 ∧ p.2 ∈ departmentNames :=
  mem_schedule_iff.mp (List.mem_of_mem_take h)

theorem mem_drop_schedule {n : Nat} {p : Nat × depName} (h : p ∈ schedule.drop n) :
    p.1 < 3 ∧ p.2 ∈ departmentNames :=
  mem_schedule_iff.mp (List.mem_of_mem_drop h)

theorem pass_withinCapacity (max : Int) {flow : Nat} {dep : depName} (hf : flow < 3)
    (hd : dep ∈ departmentNames) {pool : applications} (h3 : threePreferences pool)
    (hcap : withinCapacity max pool) :
    ∃ pool', departmentPass max flow pool dep = some pool' ∧ threePreferences pool' ∧
      withinCapacity max pool' := by
  obtain ⟨pool', hrun, hrel, hc, -⟩ := departmentPass_spec max dep (flow_lt_of_three h3 hf)
  refine ⟨pool', hrun, (evolves_of_pass hd hrel).threePreferences h3, ?_⟩
  intro d hdmem
  by_cases hdd : d = dep
  · subst hdd
    exact hc (hcap d hdmem)
  · rw [Assigns.count_eq hrel hdd (ne_noneName_of_mem hdmem),
      countAssigned_perm (sort_perm pool dep) d]
    exact hcap d hdmem

theorem runPasses_withinCapacity (max : Int) (passes : List (Nat × depName))
    (hpasses : ∀ p ∈ passes, p.1 < 3 ∧ p.2 ∈ departmentNames)
    {pool : applications} (h3 : threePreferences pool) (hcap : withinCapacity max pool) :
    ∃ out, runPasses max passes pool = some out ∧ withinCapacity max out := by
  obtain ⟨out, hrun, -, hc⟩ := foldlM_invariant (fun pool p => departmentPass max p.1 pool p.2)
    (fun s => threePreferences s ∧ withinCapacity max s) passes
    (by
      intro s p hp hs
      exact pass_withinCapacity max (hpasses p hp).1 (hpasses p hp).2 hs.1 hs.2)
    pool ⟨h3, hcap⟩
  exact ⟨out, hrun, hc⟩

theorem withinCapacity_of_allUnassigned {max : Int} (hmax : 0 ≤ max) {pool : applications}
    (hu : allUnassigned pool) : withinCapacity max pool := by
  intro d hd
  rw [countAssigned_eq_zero (fun a ha => by
    rw [hu a ha]
    exact Ne.symm (ne_noneName_of_mem hd))]
  exact_mod_cast hmax


/-! Claims about the assignment engine -/

theorem examplePool_three : threePreferences examplePool := by
  intro app happ
  simp only [examplePool, List.mem_cons, List.mem_singleton, List.mem_nil_iff, or_false] at happ
  rcases happ with rfl | rfl | rfl <;> rfl

theorem examplePool_unassigned : allUnassigned examplePool := by
  intro app happ
  simp only [examplePool, List.mem_cons, List.mem_singleton, List.mem_nil_iff, or_false] at happ
  rcases happ with rfl | rfl | rfl <;> rfl

/-- C1 (capacity bound). For a pool of unassigned applicants with three preferences
each and a capacity `max ≥ 0`: `assignDepartments` returns a pool in which every one
of the five departments holds at most `max` applicants; the same holds for the pool
after every prefix of the fifteen department passes (which is what the nested loops
run); and the bound is an invariant of the single department pass from any pool
state. -/
theorem capacity_bound (max : Int) (hmax : 0 ≤ max) (pool : applications)
    (h3 : threePreferences pool) (hu : allUnassigned pool) :
    (∃ final, assignDepartments max pool = some final ∧
      ∀ d ∈ departmentNames, (countAssigned final d : Int) ≤ max) ∧
    assignDepartments max pool = runPasses max schedule pool ∧
    (∀ n : Nat, ∃ mid, runPasses max (schedule.take n) pool = some mid ∧
      ∀ d ∈ departmentNames, (countAssigned mid d : Int) ≤ max) ∧
    (∀ (state : applications) (flow : Nat) (dep : depName), threePreferences state →
      flow < 3 → dep ∈ departmentNames → withinCapacity max state →
      ∃ next, departmentPass max flow state dep = some next ∧ withinCapacity max next) := by
  have h0 := withinCapacity_of_allUnassigned hmax hu
  refine ⟨?_, assignDepartments_eq_runPasses max pool, ?_, ?_⟩
  · rw [assignDepartments_eq_runPasses]
    exact runPasses_withinCapacity max schedule (fun p hp => mem_schedule_iff.mp hp) h3 h0
  · intro n
    exact runPasses_withinCapacity max _ (fun p hp => mem_take_schedule hp) h3 h0
  · intro state flow dep hs hf hd hc
    obtain ⟨next, hrun, -, hn⟩ := pass_withinCapacity max hf hd hs hc
    exact ⟨next, hrun, hn⟩

theorem capacity_bound_witness :
    (0 : Int) ≤ 1 ∧ threePreferences examplePool ∧ allUnassigned examplePool ∧
      ∃ final, assignDepartments 1 examplePool = some final ∧
        ∀ d ∈ departmentNames, (countAssigned final d : Int) ≤ 1 :=
  ⟨by decide, examplePool_three, examplePool_unassigned,
    (capacity_bound 1 (by decide) examplePool examplePool_three examplePool_unassigned).1⟩

/-- C2 (assignment is a listed preference). For a pool of unassigned applicants with
three preferences each, after `assignDepartments` every applicant is unassigned
(`"none"`) or is assigned to one of the five departments that is also its own
preference at index 0, 1 or 2; an applicant none of whose preferences is one of the
five departments stays unassigned. -/
theorem assigned_is_preference (max : Int) (pool : applications)
    (h3 : threePreferences pool) (hu : allUnassigned pool) :
    ∃ final, assignDepartments max pool = some final ∧
      ∀ app ∈ final,
        (app.assignedDepartment = noneName ∨
          (app.assignedDepartment ∈ departmentNames ∧
            ∃ k, k < 3 ∧ app.departments[k]? = some app.assignedDepartment)) ∧
        ((∀ d ∈ app.departments, d ∉ departmentNames) → app.assignedDepartment = noneName) := by
  rw [assignDepartments_eq_runPasses]
  obtain ⟨final, hrun, h3f, hev⟩ :=
    runPasses_evolves max schedule (fun p hp => mem_schedule_iff.mp hp) h3
  refine ⟨final, hrun, ?_⟩
  intro app happ
  obtain ⟨a, ha, hk⟩ := hev.mem happ
  rcases hk with rfl | ⟨-, d, hd, hmem, rfl⟩
  · exact ⟨Or.inl (hu _ ha), fun _ => hu _ ha⟩
  · refine ⟨Or.inr ⟨hd, ?_⟩, fun hnot => absurd hd (hnot d hmem)⟩
    obtain ⟨k, hk⟩ := List.getElem?_of_mem hmem
    refine ⟨k, ?_, hk⟩
    have hlt : k < a.departments.length := (List.getElem?_eq_some.mp hk).1
    rw [h3 a ha] at hlt
    exact hlt

theorem assigned_is_preference_witness :
    threePreferences examplePool ∧ allUnassigned examplePool ∧ ∃ final, assignDepartments 1 examplePool = some final ∧
      ∀ app ∈ final,
        (app.assignedDepartment = noneName ∨
          (app.assignedDepartment ∈ departmentNames ∧
            ∃ k, k < 3 ∧ app.departments[k]? = some app.assignedDepartment)) ∧
        ((∀ d ∈ app.departments, d ∉ departmentNames) → app.assignedDepartment = noneName) :=
  ⟨examplePool_three, examplePool_unassigned,
    assigned_is_preference 1 examplePool examplePool_three examplePool_unassigned⟩


theorem getRelevantScore_of_mem {app : application}
    (h : app.assignedDepartment ∈ departmentNames) :
    app.getRelevantScore = specScore app.assignedDepartment app := by
  have n1 : chemDepName ≠ bioDepName := by decide
  have n2 : comSciDepName ≠ bioDepName := by decide
  have n3 : comSciDepName ≠ chemDepName := by decide
  have n4 : mathDepName ≠ bioDepName := by decide
  have n5 : mathDepName ≠ chemDepName := by decide
  have n6 : mathDepName ≠ comSciDepName := by decide
  have n7 : physDepName ≠ bioDepName := by decide
  have n8 : physDepName ≠ chemDepName := by decide
  have n9 : physDepName ≠ comSciDepName := by decide
  have n10 : physDepName ≠ mathDepName := by decide
  rcases mem_departmentNames.mp h with h | h | h | h | h <;>
    simp [application.getRelevantScore, specScore, specSubset, h, getBestScore_one,
      getBestScore_two, n1, n2, n3, n4, n5, n6, n7, n8, n9, n10]

theorem getRelevantScore_of_not_mem {app : application}
    (h : app.assignedDepartment ∉ departmentNames) : app.getRelevantScore = 0 := by
  simp only [mem_departmentNames, not_or] at h
  simp [application.getRelevantScore, h]

/-- C3 (score formula). `getRelevantScore` is `max(admission, average of the subset of
the assigned department)` when the assignment is one of the five departments, and 0
otherwise (unassigned included); an applicant with math 90, physics 80, admission 70
assigned to Physics scores 85. -/
theorem getRelevantScore_formula (app : application) :
    (app.getRelevantScore =
      if app.assignedDepartment ∈ departmentNames then
        max app.scores.admission
          ((specSubset app.assignedDepartment app.scores).sum /
            (specSubset app.assignedDepartment app.scores).length)
      else 0) ∧
    (app.assignedDepartment = noneName → app.getRelevantScore = 0) ∧
    (app.scores.math = 90 → app.scores.physics = 80 → app.scores.admission = 70 →
      app.assignedDepartment = physDepName → app.getRelevantScore = 85) := by
  refine ⟨?_, ?_, ?_⟩
  · by_cases h : app.assignedDepartment ∈ departmentNames
    · rw [if_pos h, getRelevantScore_of_mem h]
      rfl
    · rw [if_neg h, getRelevantScore_of_not_mem h]
  · intro h
    apply getRelevantScore_of_not_mem
    rw [h]
    decide
  · intro hm hp ha hd
    have hmem : app.assignedDepartment ∈ departmentNames := by
      rw [hd]; decide
    rw [getRelevantScore_of_mem hmem, hd]
    have n1 : physDepName ≠ bioDepName := by decide
    have n2 : physDepName ≠ chemDepName := by decide
    have n3 : physDepName ≠ comSciDepName := by decide
    have n4 : physDepName ≠ mathDepName := by decide
    simp only [specScore, specSubset, if_neg n1, if_neg n2, if_neg n3, if_neg n4, if_true, hm, hp,
      ha]
    norm_num

theorem getRelevantScore_formula_witness :
    { applicantA with assignedDepartment := physDepName }.getRelevantScore = 85 :=
  (getRelevantScore_formula { applicantA with assignedDepartment := physDepName }).2.2
    rfl rfl rfl rfl

/-- C4 (assignments are terminal). From any pool state a department pass returns and
relates the sorted pool position by position to its result: name, scores and
preferences are kept, and an applicant that was not unassigned keeps its assignment.
Across `assignDepartments`, for every prefix of the fifteen passes, the state after the
prefix evolves from the initial pool and the final pool evolves from that state, where
evolving lets an applicant only stay as it is or go from unassigned to one
department. -/
theorem assignment_terminal (max : Int) (pool : applications) (h3 : threePreferences pool) :
    (∀ (flow : Nat) (dep : depName), flow < 3 →
      ∃ next, departmentPass max flow pool dep = some next ∧
        (applications.sort pool dep).Perm pool ∧
        List.Forall₂
          (fun a b => b.record = a.record ∧
            (a.assignedDepartment ≠ noneName → b.assignedDepartment = a.assignedDepartment))
          (applications.sort pool dep) next) ∧
    (∀ n : Nat, ∃ mid final, runPasses max (schedule.take n) pool = some mid ∧
      assignDepartments max pool = some final ∧ Evolves pool mid ∧ Evolves mid final) := by
  constructor
  · intro flow dep hf
    obtain ⟨next, hrun, hrel, -, -⟩ :=
      departmentPass_spec max dep (flow_lt_of_three h3 hf)
    refine ⟨next, hrun, sort_perm pool dep, hrel.imp ?_⟩
    intro a b hab
    rcases hab with rfl | ⟨hn, -, rfl⟩
    · exact ⟨rfl, fun _ => rfl⟩
    · exact ⟨rfl, fun hne => absurd hn hne⟩
  · intro n
    obtain ⟨mid, hmid, h3m, hev1⟩ :=
      runPasses_evolves max (schedule.take n) (fun p hp => mem_take_schedule hp) h3
    obtain ⟨final, hfinal, -, hev2⟩ :=
      runPasses_evolves max (schedule.drop n) (fun p hp => mem_drop_schedule hp) h3m
    refine ⟨mid, final, hmid, ?_, hev1, hev2⟩
    rw [assignDepartments_eq_runPasses, ← List.take_append_drop n schedule, runPasses_append,
      hmid]
    exact hfinal

theorem assignment_terminal_witness :
    threePreferences examplePool ∧
      ∀ n : Nat, ∃ mid final, runPasses 1 (schedule.take n) examplePool = some mid ∧
        assignDepartments 1 examplePool = some final ∧ Evolves examplePool mid ∧
        Evolves mid final :=
  ⟨examplePool_three, (assignment_terminal 1 examplePool examplePool_three).2⟩


/-! Leftover applicants and the storage order -/

/-- An eligible applicant that is still unassigned sees a full department. -/
theorem pass_full (max : Int) {p : Nat × depName} (hp : p.1 < 3 ∧ p.2 ∈ departmentNames)
    {pool : applications} (h3 : threePreferences pool) :
    ∃ pool', departmentPass max p.1 pool p.2 = some pool' ∧ threePreferences pool' ∧
      (∀ b ∈ pool', b.assignedDepartment = noneName → b.departments[p.1]? = some p.2 →
        max ≤ (countAssigned pool' p.2 : Int)) ∧
      ∀ q : Nat × depName, q.2 ∈ departmentNames →
        (∀ b ∈ pool, b.assignedDepartment = noneName → b.departments[q.1]? = some q.2 →
          max ≤ (countAssigned pool q.2 : Int)) →
        ∀ b ∈ pool', b.assignedDepartment = noneName → b.departments[q.1]? = some q.2 →
          max ≤ (countAssigned pool' q.2 : Int) := by
  obtain ⟨pool', hrun, hrel, -, hfull⟩ :=
    departmentPass_spec max p.2 (flow_lt_of_three h3 hp.1)
  have hev := evolves_of_pass hp.2 hrel
  refine ⟨pool', hrun, hev.threePreferences h3, hfull (ne_noneName_of_mem hp.2), ?_⟩
  intro q hq hold b hb hnone hpref
  obtain ⟨a, ha, hk⟩ := hev.mem hb
  have hanone : a.assignedDepartment = noneName := by
    by_contra hne
    rw [hk.assigned_eq hne] at hnone
    exact hne hnone
  have h1 := hold a ha hanone (by rw [← hk.departments_eq]; exact hpref)
  have h2 := evolves_count_le hev (ne_noneName_of_mem hq)
  have h3 : (countAssigned pool q.2 : Int) ≤ (countAssigned pool' q.2 : Int) := by
    exact_mod_cast h2
  exact le_trans h1 h3

theorem runPasses_full (max : Int) (passes : List (Nat × depName))
    (hpasses : ∀ p ∈ passes, p.1 < 3 ∧ p.2 ∈ departmentNames)
    {pool : applications} (h3 : threePreferences pool) :
    ∃ out, runPasses max passes pool = some out ∧
      ∀ p ∈ passes, ∀ b ∈ out, b.assignedDepartment = noneName →
        b.departments[p.1]? = some p.2 → max ≤ (countAssigned out p.2 : Int) := by
  obtain ⟨out, hrun, -, hq⟩ := foldlM_establish (fun pool p => departmentPass max p.1 pool p.2)
    threePreferences
    (fun q s => q.2 ∈ departmentNames → ∀ b ∈ s, b.assignedDepartment = noneName →
      b.departments[q.1]? = some q.2 → max ≤ (countAssigned s q.2 : Int))
    passes
    (by
      intro s p hp hs
      obtain ⟨s', hrun, h3', hfull, hkeep⟩ := pass_full max (hpasses p hp) hs
      exact ⟨s', hrun, h3', fun _ => hfull, fun y hy hmem => hkeep y hmem (hy hmem)⟩)
    pool h3
  exact ⟨out, hrun, fun p hp => hq p hp (hpasses p hp).2⟩

/-- With a non-positive capacity the loop changes nothing. -/
theorem assignLoop_of_nonpos {max : Int} (hmax : max ≤ 0) (flow : Nat) (dep : depName) :
    ∀ (rest done : applications), (∀ a ∈ rest, flow < a.departments.length) →
      assignLoop max flow dep done rest = some (done ++ rest) := by
  intro rest
  induction rest with
  | nil => intro done _; simp [assignLoop]
  | cons app rest ih =>
    intro done hlen
    have happ : flow < app.departments.length := hlen app (List.mem_cons_self _ _)
    have hget : app.departments[flow]? = some app.departments[flow] :=
      List.getElem?_eq_getElem happ
    have hc : ¬ (app.departments[flow] = dep ∧ app.assignedDepartment = noneName ∧
        (countAssigned (done ++ app :: rest) dep : Int) < max) := by
      rintro ⟨-, -, hlt⟩
      have : (0 : Int) ≤ (countAssigned (done ++ app :: rest) dep : Int) := Int.natCast_nonneg _
      omega
    rw [assignLoop, hget]
    simp only
    rw [if_neg hc, ite_self, ih _ (fun a ha => hlen a (List.mem_cons_of_mem _ ha))]
    simp

theorem runPasses_of_nonpos {max : Int} (hmax : max ≤ 0) (passes : List (Nat × depName))
    (hpasses : ∀ p ∈ passes, p.1 < 3 ∧ p.2 ∈ departmentNames)
    {pool : applications} (h3 : threePreferences pool) (hu : allUnassigned pool) :
    ∃ out, runPasses max passes pool = some out ∧ allUnassigned out := by
  obtain ⟨out, hrun, -, hout⟩ := foldlM_invariant
    (fun pool p => departmentPass max p.1 pool p.2)
    (fun s => threePreferences s ∧ allUnassigned s) passes
    (by
      intro s p hp hs
      refine ⟨applications.sort s p.2, ?_, ?_, ?_⟩
      · have := assignLoop_of_nonpos hmax p.1 p.2 (applications.sort s p.2) []
          (fun a ha => flow_lt_of_three hs.1 (hpasses p hp).1 a (mem_sort.mp ha))
        simpa [departmentPass] using this
      · exact fun a ha => hs.1 a (mem_sort.mp ha)
      · exact fun a ha => hs.2 a (mem_sort.mp ha))
    pool ⟨h3, hu⟩
  exact ⟨out, hrun, hout⟩

theorem record_specScore (dep : depName) (a : application) :
    specScore dep a.record = specScore dep a := rfl

theorem rankedBefore_of_record {dep : depName} {a b a' b' : application}
    (ha : a'.record = a.record) (hb : b'.record = b.record) (h : rankedBefore dep a b) :
    rankedBefore dep a' b' := by
  have e1 : specScore dep a' = specScore dep a := by
    rw [← record_specScore dep a', ha, record_specScore]
  have e2 : specScore dep b' = specScore dep b := by
    rw [← record_specScore dep b', hb, record_specScore]
  have n1 : a'.name = a.name :=
    show a'.record.name = a.record.name from congrArg application.name ha
  have n2 : b'.name = b.name :=
    show b'.record.name = b.record.name from congrArg application.name hb
  unfold rankedBefore at h ⊢
  rw [e1, e2, n1, n2]
  exact h

theorem pairwise_of_forall₂ {dep : depName} {l l' : applications}
    (hrel : List.Forall₂ (fun a b => b.record = a.record) l l')
    (h : l.Pairwise (rankedBefore dep)) : l'.Pairwise (rankedBefore dep) := by
  induction hrel with
  | nil => exact List.Pairwise.nil
  | cons hab hrest ih =>
    rename_i a b l l'
    rw [List.pairwise_cons] at h ⊢
    refine ⟨?_, ih h.2⟩
    intro c' hc'
    obtain ⟨c, hc, hcc⟩ : ∃ c ∈ l, c'.record = c.record := by
      clear ih h
      induction hrest with
      | nil => simp at hc'
      | cons hxy _ ih2 =>
        rcases List.mem_cons.mp hc' with rfl | hmem
        · exact ⟨_, List.mem_cons_self _ _, hxy⟩
        · obtain ⟨c, hc, hcc⟩ := ih2 hmem
          exact ⟨c, List.mem_cons_of_mem _ hc, hcc⟩
    exact rankedBefore_of_record hab hcc (h.1 c hc)

theorem Evolves.map_record {p q : applications} (h : Evolves p q) :
    (q.map application.record).Perm (p.map application.record) := by
  obtain ⟨r, hr, hrel⟩ := h
  have hmap : q.map application.record = r.map application.record := by
    clear hr
    induction hrel with
    | nil => rfl
    | cons hab _ ih => simp [List.map_cons, hab.record_eq, ih]
  rw [hmap]
  exact hr.map _

/-- After `assignDepartments` the pool holds the same records, left in the order of
the last sort, the one for Physics. -/
theorem assignDepartments_storage (max : Int) {pool : applications}
    (h3 : threePreferences pool) :
    ∃ final, assignDepartments max pool = some final ∧
      (final.map application.record).Perm (pool.map application.record) ∧
      final.Pairwise (rankedBefore physDepName) := by
  have hsplit : schedule = schedule.take 14 ++ [(2, physDepName)] := by
    rw [schedule_eq]; rfl
  obtain ⟨mid, hmid, h3m, hev1⟩ :=
    runPasses_evolves max (schedule.take 14) (fun p hp => mem_take_schedule hp) h3
  have hphys : physDepName ∈ departmentNames := by decide
  obtain ⟨final, hrun, -, hev2, hrel⟩ :=
    pass_evolves max (p := (2, physDepName)) ⟨by decide, hphys⟩ h3m
  refine ⟨final, ?_, (evolves_trans hev1 hev2).map_record, ?_⟩
  · rw [assignDepartments_eq_runPasses, hsplit, runPasses_append, hmid]
    simp only [Option.some_bind, runPasses, List.foldlM_cons, List.foldlM_nil]
    rw [hrun]
    rfl
  · refine pairwise_of_forall₂ (hrel.imp ?_) (sort_pairwise mid hphys)
    intro a b hab
    exact (hab.keeps hphys).record_eq


/-! The roster writer -/

theorem writeToFiles_fold (deps : List depName) :
    ∀ (apps : applications) (acc : List (String × List rosterLine)),
      (deps.foldl
        (fun (st : applications × List (String × List rosterLine)) dep =>
          (applications.sort st.1 dep,
            st.2 ++ [(fileName dep, rosterLines (applications.sort st.1 dep) dep)]))
        (apps, acc)).2 =
      acc ++ List.zipWith (fun d r => (fileName d, r.map application.writeToFile)) deps
        (rosterApplicants apps deps) := by
  induction deps with
  | nil => intro apps acc; simp [rosterApplicants]
  | cons d ds ih =>
    intro apps acc
    rw [List.foldl_cons, ih]
    simp [rosterApplicants, rosterLines]

theorem writeToFiles_files (apps : applications) :
    (writeToFiles apps).2 =
      List.zipWith (fun d r => (fileName d, r.map application.writeToFile)) departmentNames
        (rosterApplicants apps departmentNames) := by
  have h := writeToFiles_fold departmentNames apps []
  simpa [writeToFiles] using h

theorem rosterApplicants_spec (deps : List depName) (hdeps : ∀ d ∈ deps, d ∈ departmentNames) :
    ∀ apps : applications,
      List.Forall₂
        (fun d r => d ∈ departmentNames ∧
          r.Perm (apps.filter (fun app => decide (app.assignedDepartment = d))) ∧
            r.Pairwise (rankedBefore d))
        deps (rosterApplicants apps deps) := by
  induction deps with
  | nil => intro apps; exact List.Forall₂.nil
  | cons d ds ih =>
    intro apps
    have hd : d ∈ departmentNames := hdeps d (List.mem_cons_self _ _)
    refine List.Forall₂.cons ⟨hd, (sort_perm apps d).filter _, ?_⟩ ?_
    · exact (sort_pairwise apps hd).filter _
    · refine (ih (fun x hx => hdeps x (List.mem_cons_of_mem _ hx))
        (applications.sort apps d)).imp ?_
      intro x r hr
      exact ⟨hr.1, hr.2.1.trans ((sort_perm apps d).filter _), hr.2.2⟩

theorem countP_rosters {apps : applications} {app : application} (happ : app ∈ apps) :
    ∀ {deps : List depName} {rosters : List applications},
      List.Forall₂
        (fun d r => r.Perm (apps.filter (fun a => decide (a.assignedDepartment = d))))
        deps rosters →
      rosters.countP (fun r => decide (app ∈ r)) =
        deps.countP (fun d => decide (app.assignedDepartment = d)) := by
  intro deps rosters h
  induction h with
  | nil => rfl
  | @cons d r ds rs hdr _ ih =>
    rw [List.countP_cons, List.countP_cons, ih]
    have hiff : app ∈ r ↔ app.assignedDepartment = d := by
      rw [hdr.mem_iff, List.mem_filter]
      simp [happ]
    by_cases hc : app.assignedDepartment = d
    · simp [hc, hiff.mpr hc]
    · simp [hc, mt hiff.mp hc]

theorem forall₂_zipWith_files {P : depName → applications → Prop}
    {Q : depName → String × List rosterLine → Prop}
    (hPQ : ∀ d r, P d r → Q d (fileName d, r.map application.writeToFile)) :
    ∀ {deps : List depName} {rosters : List applications}, List.Forall₂ P deps rosters →
      List.Forall₂ Q deps
        (List.zipWith (fun d r => (fileName d, r.map application.writeToFile)) deps rosters) := by
  intro deps rosters h
  induction h with
  | nil => exact List.Forall₂.nil
  | cons hdr _ ih => exact List.Forall₂.cons (hPQ _ _ hdr) ih

theorem less_iff {dep : depName} (hd : dep ∈ departmentNames) (a b : application) :
    less dep a b = true ↔
      specScore dep a > specScore dep b ∨
        (specScore dep a = specScore dep b ∧ a.name.getFullName < b.name.getFullName) := by
  rw [less_eq hd]
  by_cases h : specScore dep a = specScore dep b
  · simp [h]
  · simp [h]

theorem lineOrdered_of_rankedBefore {d : depName} (hd : d ∈ departmentNames)
    {a b : application} (ha : a.assignedDepartment = d) (hb : b.assignedDepartment = d)
    (h : rankedBefore d a b) : lineOrdered a.writeToFile b.writeToFile := by
  have e1 : a.getRelevantScore = specScore d a := by
    rw [getRelevantScore_of_mem (ha ▸ hd), ha]
  have e2 : b.getRelevantScore = specScore d b := by
    rw [getRelevantScore_of_mem (hb ▸ hd), hb]
  unfold lineOrdered application.writeToFile
  simp only [e1, e2]
  exact h


/-! Claims about rosters, sorting and storage -/

/-- C5 (roster round trip). For a pool of unassigned applicants with three preferences
each, `assignDepartments` returns a final pool, and `writeToFiles` on it produces the
five files in department order, the file of department `d` holding the lines of a
list of applicants that is a permutation of the applicants finally assigned to `d`
(so it has `countAssigned d` lines); an assigned applicant is in exactly one of the
five rosters and an unassigned applicant is in none. -/
theorem roster_round_trip (max : Int) (pool : applications)
    (h3 : threePreferences pool) (hu : allUnassigned pool) :
    ∃ final, assignDepartments max pool = some final ∧
      ∃ rosters : List applications,
        (writeToFiles final).2 =
          List.zipWith (fun d r => (fileName d, r.map application.writeToFile))
            departmentNames rosters ∧
        List.Forall₂
          (fun d r =>
            r.Perm (final.filter (fun app => decide (app.assignedDepartment = d))) ∧
              r.length = countAssigned final d)
          departmentNames rosters ∧
        (∀ app ∈ final, app.assignedDepartment ≠ noneName →
          rosters.countP (fun r => decide (app ∈ r)) = 1) ∧
        (∀ app ∈ final, app.assignedDepartment = noneName → ∀ r ∈ rosters, app ∉ r) := by
  obtain ⟨final, hrun, -, hev⟩ :=
    runPasses_evolves max schedule (fun p hp => mem_schedule_iff.mp hp) h3
  rw [← assignDepartments_eq_runPasses] at hrun
  have hspec := rosterApplicants_spec departmentNames (fun d hd => hd) final
  have hperm : List.Forall₂
      (fun d r => r.Perm (final.filter (fun app => decide (app.assignedDepartment = d))))
      departmentNames (rosterApplicants final departmentNames) :=
    hspec.imp (fun _ _ h => h.2.1)
  refine ⟨final, hrun, rosterApplicants final departmentNames, writeToFiles_files final,
    ?_, ?_, ?_⟩
  · refine hspec.imp ?_
    intro d r h
    exact ⟨h.2.1, by rw [h.2.1.length_eq, countAssigned_eq_length_filter]⟩
  · intro app happ hne
    rw [countP_rosters happ hperm]
    obtain ⟨a, ha, hk⟩ := hev.mem happ
    rcases hk with rfl | ⟨-, d, hd, -, rfl⟩
    · exact absurd (hu _ ha) hne
    · rcases mem_departmentNames.mp hd with h | h | h | h | h <;> subst h <;> rfl
  · intro app happ hnone
    have hzero : (rosterApplicants final departmentNames).countP
        (fun r => decide (app ∈ r)) = 0 := by
      rw [countP_rosters happ hperm, hnone]
      rfl
    intro r hr hmem
    have := (List.countP_eq_zero.mp hzero) r hr
    simp [hmem] at this

theorem roster_round_trip_witness :
    threePreferences examplePool ∧ allUnassigned examplePool ∧
      ∃ final, assignDepartments 1 examplePool = some final ∧
        ∃ rosters : List applications,
          (writeToFiles final).2 =
            List.zipWith (fun d r => (fileName d, r.map application.writeToFile))
              departmentNames rosters ∧
          List.Forall₂
            (fun d r =>
              r.Perm (final.filter (fun app => decide (app.assignedDepartment = d))) ∧
                r.length = countAssigned final d)
            departmentNames rosters ∧
          (∀ app ∈ final, app.assignedDepartment ≠ noneName →
            rosters.countP (fun r => decide (app ∈ r)) = 1) ∧
          (∀ app ∈ final, app.assignedDepartment = noneName → ∀ r ∈ rosters, app ∉ r) :=
  ⟨examplePool_three, examplePool_unassigned,
    roster_round_trip 1 examplePool examplePool_three examplePool_unassigned⟩

/-- C6 (roster order). For every pool, the five files written are those of the five
departments in order and in each the lines are pairwise ordered: the printed score of
an earlier line is at least that of a later line, and on equal scores the earlier
full name is not greater. For two applicants assigned to a department `d`, the
comparator of `d` decides exactly by `getRelevantScore` (greater first) and then by
full name. -/
theorem roster_order (pool : applications) :
    List.Forall₂
      (fun d (file : String × List rosterLine) =>
        file.1 = fileName d ∧
          file.2.Pairwise (fun l₁ l₂ =>
            l₁.score ≥ l₂.score ∧ (l₁.score = l₂.score → l₁.fullName ≤ l₂.fullName)))
      departmentNames (writeToFiles pool).2 ∧
    (∀ d ∈ departmentNames, ∀ a b : application,
      a.assignedDepartment = d → b.assignedDepartment = d →
      (less d a b = true ↔
        a.getRelevantScore > b.getRelevantScore ∨
          (a.getRelevantScore = b.getRelevantScore ∧
            a.name.getFullName < b.name.getFullName))) := by
  constructor
  · rw [writeToFiles_files]
    have hmem := rosterApplicants_spec departmentNames (fun d hd => hd) pool
    refine forall₂_zipWith_files ?_ hmem
    intro d r ⟨hd, hperm, hpw⟩
    refine ⟨rfl, ?_⟩
    rw [List.pairwise_map]
    refine hpw.imp_of_mem ?_
    intro a b ha hb hab
    have ha' : a.assignedDepartment = d := by
      have := (List.mem_filter.mp (hperm.subset ha)).2
      simpa using this
    have hb' : b.assignedDepartment = d := by
      have := (List.mem_filter.mp (hperm.subset hb)).2
      simpa using this
    exact lineOrdered_of_rankedBefore hd ha' hb' hab
  · intro d hd a b ha hb
    rw [getRelevantScore_of_mem (ha ▸ hd), getRelevantScore_of_mem (hb ▸ hd), ha, hb]
    exact less_iff hd a b

theorem roster_order_witness :
    physDepName ∈ departmentNames ∧
      (less physDepName { applicantB with assignedDepartment := physDepName }
          { applicantA with assignedDepartment := physDepName } = true ↔
        { applicantB with assignedDepartment := physDepName }.getRelevantScore >
            { applicantA with assignedDepartment := physDepName }.getRelevantScore ∨
          ({ applicantB with assignedDepartment := physDepName }.getRelevantScore =
              { applicantA with assignedDepartment := physDepName }.getRelevantScore ∧
            { applicantB with assignedDepartment := physDepName }.name.getFullName <
              { applicantA with assignedDepartment := physDepName }.name.getFullName)) :=
  ⟨by decide,
    (roster_order examplePool).2 physDepName (by decide)
      { applicantB with assignedDepartment := physDepName }
      { applicantA with assignedDepartment := physDepName } rfl rfl⟩

/-- C7 (per-department sort). For every pool and each of the five departments `d`,
`sort(d)` returns a permutation of the pool in which, for positions `i < j`, the
department score (`max(admission, average of d's subset)`) at `i` is at least the one
at `j`, and on equal scores the full name at `i` is at most the one at `j`. -/
theorem sort_sorted_perm (pool : applications) (d : depName) (hd : d ∈ departmentNames) :
    (applications.sort pool d).Perm pool ∧
    ∀ (i j : Nat) (a b : application), i < j →
      (applications.sort pool d)[i]? = some a → (applications.sort pool d)[j]? = some b →
      specScore d a ≥ specScore d b ∧
        (specScore d a = specScore d b → a.name.getFullName ≤ b.name.getFullName) := by
  refine ⟨sort_perm pool d, ?_⟩
  intro i j a b hij hi hj
  have hpw := sort_pairwise pool hd
  rw [List.pairwise_iff_getElem] at hpw
  obtain ⟨hi', rfl⟩ := List.getElem?_eq_some.mp hi
  obtain ⟨hj', rfl⟩ := List.getElem?_eq_some.mp hj
  exact hpw i j hi' hj' hij

theorem sort_sorted_perm_witness :
    physDepName ∈ departmentNames ∧ (applications.sort examplePool physDepName).Perm examplePool :=
  ⟨by decide, (sort_sorted_perm examplePool physDepName (by decide)).1⟩


theorem rosterApplicants_of_allUnassigned (deps : List depName)
    (hdeps : ∀ d ∈ deps, d ∈ departmentNames) :
    ∀ apps : applications, allUnassigned apps →
      List.zipWith (fun d r => (fileName d, r.map application.writeToFile)) deps
        (rosterApplicants apps deps) =
      deps.map (fun d => (fileName d, ([] : List rosterLine))) := by
  induction deps with
  | nil => intro apps _; rfl
  | cons d ds ih =>
    intro apps hu
    have hd : d ≠ noneName := ne_noneName_of_mem (hdeps d (List.mem_cons_self _ _))
    have hsorted : allUnassigned (applications.sort apps d) :=
      fun a ha => hu a (mem_sort.mp ha)
    have hempty : (applications.sort apps d).filter
        (fun app => decide (app.assignedDepartment = d)) = [] := by
      rw [List.filter_eq_nil_iff]
      intro a ha
      rw [hsorted a ha]
      simpa using Ne.symm hd
    simp only [rosterApplicants, List.zipWith_cons_cons, List.map_cons, hempty, List.map_nil]
    rw [ih (fun x hx => hdeps x (List.mem_cons_of_mem _ hx)) _ hsorted]

/-- C8 (non-positive capacity). For a pool of unassigned applicants with three
preferences each and a capacity `max ≤ 0`, `assignDepartments` returns a pool in which
every applicant is still unassigned, and `writeToFiles` then writes five empty
files. -/
theorem nonpositive_capacity (max : Int) (hmax : max ≤ 0) (pool : applications)
    (h3 : threePreferences pool) (hu : allUnassigned pool) :
    ∃ final, assignDepartments max pool = some final ∧ allUnassigned final ∧
      (writeToFiles final).2 =
        departmentNames.map (fun d => (fileName d, ([] : List rosterLine))) := by
  obtain ⟨final, hrun, hfinal⟩ :=
    runPasses_of_nonpos hmax schedule (fun p hp => mem_schedule_iff.mp hp) h3 hu
  refine ⟨final, by rw [assignDepartments_eq_runPasses]; exact hrun, hfinal, ?_⟩
  rw [writeToFiles_files]
  exact rosterApplicants_of_allUnassigned departmentNames (fun d hd => hd) final hfinal

theorem nonpositive_capacity_witness :
    (0 : Int) ≤ 0 ∧ threePreferences examplePool ∧ allUnassigned examplePool ∧
      ∃ final, assignDepartments 0 examplePool = some final ∧ allUnassigned final ∧
        (writeToFiles final).2 =
          departmentNames.map (fun d => (fileName d, ([] : List rosterLine))) :=
  ⟨le_refl 0, examplePool_three, examplePool_unassigned,
    nonpositive_capacity 0 (le_refl 0) examplePool examplePool_three examplePool_unassigned⟩

/-- C9 (leftover applicants). For a pool of applicants with three preferences each
(in particular an initially unassigned one) and any capacity, `assignDepartments`
returns a final pool in which, for every applicant still unassigned and every
preference index `k < 3` whose entry is one of the five departments, that department
holds at least `max` applicants. -/
theorem leftover_departments_full (max : Int) (pool : applications)
    (h3 : threePreferences pool) :
    ∃ final, assignDepartments max pool = some final ∧
      ∀ app ∈ final, app.assignedDepartment = noneName →
        ∀ k, k < 3 → ∀ d ∈ departmentNames, app.departments[k]? = some d →
          max ≤ (countAssigned final d : Int) := by
  obtain ⟨final, hrun, hfull⟩ :=
    runPasses_full max schedule (fun p hp => mem_schedule_iff.mp hp) h3
  refine ⟨final, by rw [assignDepartments_eq_runPasses]; exact hrun, ?_⟩
  intro app happ hnone k hk d hd hpref
  exact hfull (k, d) (mem_schedule_iff.mpr ⟨hk, hd⟩) app happ hnone hpref

theorem leftover_departments_full_witness :
    threePreferences examplePool ∧
      ∃ final, assignDepartments 1 examplePool = some final ∧
        ∀ app ∈ final, app.assignedDepartment = noneName →
          ∀ k, k < 3 → ∀ d ∈ departmentNames, app.departments[k]? = some d →
            (1 : Int) ≤ (countAssigned final d : Int) :=
  ⟨examplePool_three, leftover_departments_full 1 examplePool examplePool_three⟩

/-- C10, as stated, fails: on the pool `[applicantA, applicantB]` (Physics scores 85
and 95) with capacity 1, the records held in the pool after `assignDepartments` are
not in the order they had before. -/
theorem storage_order_counterexample :
    ∃ final, assignDepartments 1 [applicantA, applicantB] = some final ∧
      final.map application.record ≠ [applicantA, applicantB].map application.record := by
  have h3 : threePreferences [applicantA, applicantB] := by
    intro app happ
    simp only [List.mem_cons, List.mem_singleton, List.mem_nil_iff, or_false] at happ
    rcases happ with rfl | rfl <;> rfl
  obtain ⟨final, hrun, -, hpw⟩ := assignDepartments_storage 1 h3
  refine ⟨final, hrun, ?_⟩
  intro heq
  have hlen : final.length = 2 := by
    have := congrArg List.length heq
    simpa using this
  obtain ⟨x, y, rfl⟩ := List.length_eq_two.mp hlen
  simp only [List.map_cons, List.map_nil, List.cons.injEq, and_true] at heq
  obtain ⟨hx, hy⟩ := heq
  have hr : rankedBefore physDepName x y := by
    rw [List.pairwise_cons] at hpw
    exact hpw.1 y (List.mem_singleton_self y)
  have hr' : rankedBefore physDepName applicantA applicantB :=
    rankedBefore_of_record (a := x) (b := y) hx.symm hy.symm hr
  have h1 : specScore physDepName applicantA = 85 := by
    simp [specScore, specSubset, applicantA, parsedApplication, physDepName, bioDepName,
      chemDepName, comSciDepName, mathDepName]
    norm_num
  have h2 : specScore physDepName applicantB = 95 := by
    simp [specScore, specSubset, applicantB, parsedApplication, physDepName, bioDepName,
      chemDepName, comSciDepName, mathDepName]
    norm_num
  have := hr'.1
  rw [h1, h2] at this
  norm_num at this

/-- C10, amended. For every pool of applicants with three preferences each and every
capacity, `assignDepartments` returns a pool that holds the same records (name,
scores, preferences; assignment ignored) as a permutation of the records before the
call, stored in the order of the last in-place sort: pairwise in the order of the
Physics comparator. -/
theorem storage_order (max : Int) (pool : applications) (h3 : threePreferences pool) :
    ∃ final, assignDepartments max pool = some final ∧
      (final.map application.record).Perm (pool.map application.record) ∧
      final.Pairwise (fun a b =>
        specScore physDepName a ≥ specScore physDepName b ∧
          (specScore physDepName a = specScore physDepName b →
            a.name.getFullName ≤ b.name.getFullName)) :=
  assignDepartments_storage max h3

theorem storage_order_witness :
    threePreferences examplePool ∧
      ∃ final, assignDepartments 1 examplePool = some final ∧
        (final.map application.record).Perm (examplePool.map application.record) ∧
        final.Pairwise (fun a b =>
          specScore physDepName a ≥ specScore physDepName b ∧
            (specScore physDepName a = specScore physDepName b →
              a.name.getFullName ≤ b.name.getFullName)) :=
  ⟨examplePool_three, storage_order 1 examplePool examplePool_three⟩


/-! Failure freedom, preference index and frame -/

theorem perm_forall₂_trans {R : application → application → Prop}
    (htrans : ∀ a b c, R a b → R b c → R a c) {p q t : applications}
    (hpq : ∃ u : applications, u.Perm p ∧ List.Forall₂ R u q)
    (hqt : ∃ v : applications, v.Perm q ∧ List.Forall₂ R v t) :
    ∃ w : applications, w.Perm p ∧ List.Forall₂ R w t := by
  obtain ⟨u, hup, huq⟩ := hpq
  obtain ⟨v, hvq, hvt⟩ := hqt
  have hcomp : Relation.Comp (List.Forall₂ R) List.Perm u v := ⟨q, huq, hvq.symm⟩
  rw [List.forall₂_comp_perm_eq_perm_comp_forall₂] at hcomp
  obtain ⟨w, huw, hwv⟩ := hcomp
  refine ⟨w, huw.symm.trans hup, ?_⟩
  clear huw hvq huq hup
  induction hwv generalizing t with
  | nil => cases hvt; exact List.Forall₂.nil
  | cons hab _ ih =>
    cases hvt with
    | cons hbc hrest => exact List.Forall₂.cons (htrans _ _ _ hab hbc) (ih hrest)

theorem flowAssigns_trans {flow : Nat} {a b c : application} (hab : FlowAssigns flow a b)
    (hbc : FlowAssigns flow b c) : FlowAssigns flow a c := by
  rcases hab with rfl | ⟨hn, d, hd, hpref, rfl⟩
  · exact hbc
  · rcases hbc with rfl | ⟨hn', _⟩
    · exact Or.inr ⟨hn, d, hd, hpref, rfl⟩
    · exact absurd hn' (ne_noneName_of_mem hd)

theorem assignDepartmentsByFlow_eq_runPasses (max : Int) (flow : Nat) (pool : applications) :
    assignDepartmentsByFlow max flow pool =
      runPasses max (departmentNames.map (fun d => (flow, d))) pool := by
  simp [assignDepartmentsByFlow, runPasses, List.foldlM_map]

theorem flow_assigns (max : Int) {flow : Nat} (hf : flow < 3) {pool : applications}
    (h3 : threePreferences pool) :
    ∃ next, assignDepartmentsByFlow max flow pool = some next ∧ threePreferences next ∧
      ∃ before : applications, before.Perm pool ∧
        List.Forall₂ (FlowAssigns flow) before next := by
  rw [assignDepartmentsByFlow_eq_runPasses]
  obtain ⟨next, hrun, h3n, hrel⟩ := foldlM_invariant
    (fun pool p => departmentPass max p.1 pool p.2)
    (fun s => threePreferences s ∧
      ∃ before : applications, before.Perm pool ∧ List.Forall₂ (FlowAssigns flow) before s)
    (departmentNames.map (fun d => (flow, d)))
    (by
      intro s p hp hs
      obtain ⟨d, hd, rfl⟩ := List.mem_map.mp hp
      obtain ⟨s', hrun, h3', -, hrel⟩ := pass_evolves max (p := (flow, d)) ⟨hf, hd⟩ hs.1
      refine ⟨s', hrun, h3', perm_forall₂_trans (R := FlowAssigns flow)
        (fun _ _ _ h1 h2 => flowAssigns_trans h1 h2) hs.2
        ⟨applications.sort s d, sort_perm s d, hrel.imp ?_⟩⟩
      intro a b hab
      rcases hab with rfl | ⟨hn, hpref, rfl⟩
      · exact Or.inl rfl
      · exact Or.inr ⟨hn, d, hd, hpref, rfl⟩)
    pool ⟨h3, pool, List.Perm.refl pool, List.forall₂_same.mpr (fun a _ => Or.inl rfl)⟩
  exact ⟨next, hrun, h3n, hrel⟩

theorem assignLoop_none {max : Int} {flow : Nat} {dep : depName} :
    ∀ (rest done : applications), (∃ a ∈ rest, a.departments.length ≤ flow) →
      assignLoop max flow dep done rest = none := by
  intro rest
  induction rest with
  | nil => intro done h; obtain ⟨a, ha, -⟩ := h; simp at ha
  | cons app rest ih =>
    intro done h
    rw [assignLoop]
    by_cases happ : app.departments.length ≤ flow
    · rw [List.getElem?_eq_none happ]
    · have hrest : ∃ a ∈ rest, a.departments.length ≤ flow := by
        obtain ⟨a, ha, hlen⟩ := h
        rcases List.mem_cons.mp ha with rfl | ha
        · exact absurd hlen happ
        · exact ⟨a, ha, hlen⟩
      have hget : app.departments[flow]? = some app.departments[flow] :=
        List.getElem?_eq_getElem (not_le.mp happ)
      rw [hget]
      simp only [ih _ hrest, ite_self]

/-- C12 (the assignment logic cannot fail). For every pool whose applicants have
exactly three preferences each and every integer capacity, `assignDepartments`
returns a pool; the state after every prefix of the fifteen passes exists and in it
every lookup `departments[flow]` with `flow < 3` is in bounds; every record built by
`readFile` has three preferences. Conversely a pass whose flow index is out of range
for some applicant of the pool fails in the model, so the result is not trivially
defined. -/
theorem assignment_cannot_fail (max : Int) (pool : applications) (h3 : threePreferences pool) :
    (∃ final, assignDepartments max pool = some final) ∧
    (∀ n : Nat, ∃ mid, runPasses max (schedule.take n) pool = some mid ∧
      ∀ app ∈ mid, ∀ flow, flow < 3 → ∃ d, app.departments[flow]? = some d) ∧
    (∀ (firstName lastName : String) (p c m cs a : ℚ) (d1 d2 d3 : depName),
      (parsedApplication firstName lastName p c m cs a d1 d2 d3).departments.length = 3) ∧
    (∀ (state : applications) (flow : Nat) (dep : depName),
      (∃ app ∈ state, app.departments.length ≤ flow) →
      departmentPass max flow state dep = none) := by
  refine ⟨?_, ?_, ?_, ?_⟩
  · obtain ⟨final, hrun, -, -⟩ :=
      runPasses_evolves max schedule (fun p hp => mem_schedule_iff.mp hp) h3
    exact ⟨final, by rw [assignDepartments_eq_runPasses]; exact hrun⟩
  · intro n
    obtain ⟨mid, hrun, h3m, -⟩ :=
      runPasses_evolves max (schedule.take n) (fun p hp => mem_take_schedule hp) h3
    refine ⟨mid, hrun, ?_⟩
    intro app happ flow hf
    have hlt : flow < app.departments.length := by rw [h3m app happ]; exact hf
    exact ⟨app.departments[flow], List.getElem?_eq_getElem hlt⟩
  · intros
    rfl
  · intro state flow dep h
    obtain ⟨app, happ, hlen⟩ := h
    exact assignLoop_none _ _ ⟨app, mem_sort.mpr happ, hlen⟩

theorem assignment_cannot_fail_witness :
    threePreferences examplePool ∧ ∃ final, assignDepartments 1 examplePool = some final :=
  ⟨examplePool_three, (assignment_cannot_fail 1 examplePool examplePool_three).1⟩

/-- C15 (frame of the assignment). For every pool whose applicants have three
preferences each and every capacity, the pool returned by `assignDepartments`, and
the pool after every prefix of the fifteen passes, has the length of the initial pool
and holds, as a multiset, the same records with the assignment field blanked (id,
name, scores, preference list): nothing but the assignment field is altered, and no
applicant is added, duplicated or dropped. -/
theorem assignment_frame (max : Int) (pool : applications) (h3 : threePreferences pool) :
    (∃ final, assignDepartments max pool = some final ∧ final.length = pool.length ∧
      (final.map application.record).Perm (pool.map application.record)) ∧
    (∀ n : Nat, ∃ mid, runPasses max (schedule.take n) pool = some mid ∧
      mid.length = pool.length ∧
      (mid.map application.record).Perm (pool.map application.record)) := by
  have key : ∀ passes : List (Nat × depName),
      (∀ p ∈ passes, p.1 < 3 ∧ p.2 ∈ departmentNames) →
      ∃ out, runPasses max passes pool = some out ∧ out.length = pool.length ∧
        (out.map application.record).Perm (pool.map application.record) := by
    intro passes hp
    obtain ⟨out, hrun, -, hev⟩ := runPasses_evolves max passes hp h3
    have hperm := hev.map_record
    refine ⟨out, hrun, ?_, hperm⟩
    have := hperm.length_eq
    simpa using this
  constructor
  · rw [assignDepartments_eq_runPasses]
    exact key schedule (fun p hp => mem_schedule_iff.mp hp)
  · intro n
    exact key _ (fun p hp => mem_take_schedule hp)

theorem assignment_frame_witness :
    threePreferences examplePool ∧
      ∃ final, assignDepartments 1 examplePool = some final ∧
        final.length = examplePool.length ∧
        (final.map application.record).Perm (examplePool.map application.record) :=
  ⟨examplePool_three, (assignment_frame 1 examplePool examplePool_three).1⟩


/-! Evaluation on the two-applicant pool of the scenario -/

theorem sort_pair_of_less {d : depName} {x y : application} (h : less d y x = true) :
    applications.sort [x, y] d = [y, x] := by
  simp [applications.sort, sortSlice, insertSlice, h]

theorem sort_pair_of_not_less {d : depName} {x y : application} (h : less d y x = false) :
    applications.sort [x, y] d = [x, y] := by
  simp [applications.sort, sortSlice, insertSlice, h]

theorem specScore_applicantA :
    specScore bioDepName applicantA = 70 ∧ specScore chemDepName applicantA = 70 ∧
    specScore comSciDepName applicantA = 70 ∧ specScore mathDepName applicantA = 90 ∧
    specScore physDepName applicantA = 85 := by
  refine ⟨?_, ?_, ?_, ?_, ?_⟩ <;>
    simp [specScore, specSubset, applicantA, parsedApplication, physDepName, bioDepName,
      chemDepName, comSciDepName, mathDepName] <;> norm_num

theorem specScore_applicantB :
    specScore bioDepName applicantB = 165 / 2 ∧ specScore chemDepName applicantB = 70 ∧
    specScore comSciDepName applicantB = 155 / 2 ∧ specScore mathDepName applicantB = 95 ∧
    specScore physDepName applicantB = 95 := by
  refine ⟨?_, ?_, ?_, ?_, ?_⟩ <;>
    simp [specScore, specSubset, applicantB, parsedApplication, physDepName, bioDepName,
      chemDepName, comSciDepName, mathDepName] <;> norm_num

theorem less_B_A :
    less bioDepName applicantB applicantA = true ∧
    less chemDepName applicantB applicantA = false ∧
    less comSciDepName applicantB applicantA = true ∧
    less mathDepName applicantB applicantA = true ∧
    less physDepName applicantB applicantA = true := by
  refine ⟨?_, ?_, ?_, ?_, ?_⟩
  · rw [less_iff (by decide), specScore_applicantA.1, specScore_applicantB.1]
    left; norm_num
  · rw [less_eq (by decide), specScore_applicantA.2.1, specScore_applicantB.2.1]
    simp [applicantA, applicantB, parsedApplication, name.getFullName]
    decide
  · rw [less_iff (by decide), specScore_applicantA.2.2.1, specScore_applicantB.2.2.1]
    left; norm_num
  · rw [less_iff (by decide), specScore_applicantA.2.2.2.1, specScore_applicantB.2.2.2.1]
    left; norm_num
  · rw [less_iff (by decide), specScore_applicantA.2.2.2.2, specScore_applicantB.2.2.2.2]
    left; norm_num

theorem less_A_B :
    less bioDepName applicantA applicantB = false ∧
    less chemDepName applicantA applicantB = true ∧
    less comSciDepName applicantA applicantB = false ∧
    less mathDepName applicantA applicantB = false ∧
    less physDepName applicantA applicantB = false := by
  refine ⟨?_, ?_, ?_, ?_, ?_⟩
  · rw [less_eq (by decide), specScore_applicantA.1, specScore_applicantB.1]
    norm_num
  · rw [less_eq (by decide), specScore_applicantA.2.1, specScore_applicantB.2.1]
    simp [applicantA, applicantB, parsedApplication, name.getFullName]
    decide
  · rw [less_eq (by decide), specScore_applicantA.2.2.1, specScore_applicantB.2.2.1]
    norm_num
  · rw [less_eq (by decide), specScore_applicantA.2.2.2.1, specScore_applicantB.2.2.2.1]
    norm_num
  · rw [less_eq (by decide), specScore_applicantA.2.2.2.2, specScore_applicantB.2.2.2.2]
    norm_num

/-- Flow 0 on the pool `[applicantA, applicantB]` with capacity 1: Ben takes the only
Physics seat, Ada stays unassigned. -/
theorem scenario_flow_zero :
    assignDepartmentsByFlow 1 0 [applicantA, applicantB] =
      some [applicantBPhysics, applicantA] := by
  have p1 : departmentPass 1 0 [applicantA, applicantB] bioDepName =
      some [applicantB, applicantA] := by
    rw [departmentPass, sort_pair_of_less less_B_A.1]; rfl
  have p2 : departmentPass 1 0 [applicantB, applicantA] chemDepName =
      some [applicantA, applicantB] := by
    rw [departmentPass, sort_pair_of_less less_A_B.2.1]; rfl
  have p3 : departmentPass 1 0 [applicantA, applicantB] comSciDepName =
      some [applicantB, applicantA] := by
    rw [departmentPass, sort_pair_of_less less_B_A.2.2.1]; rfl
  have p4 : departmentPass 1 0 [applicantB, applicantA] mathDepName =
      some [applicantB, applicantA] := by
    rw [departmentPass, sort_pair_of_not_less less_A_B.2.2.2.1]; rfl
  have p5 : departmentPass 1 0 [applicantB, applicantA] physDepName =
      some [applicantBPhysics, applicantA] := by
    rw [departmentPass, sort_pair_of_not_less less_A_B.2.2.2.2]; rfl
  simp only [assignDepartmentsByFlow, departmentNames, List.foldlM_cons, List.foldlM_nil, p1, p2,
    p3, p4, p5, Option.bind_eq_bind, Option.some_bind]
  rfl

/-- Flow 1 on the state left by flow 0: Ada now receives Chemistry, her preference
at index 1. -/
theorem scenario_flow_one :
    assignDepartmentsByFlow 1 1 [applicantBPhysics, applicantA] =
      some [applicantBPhysics, applicantAChemistry] := by
  have p1 : departmentPass 1 1 [applicantBPhysics, applicantA] bioDepName =
      some [applicantBPhysics, applicantA] := by
    rw [departmentPass, sort_pair_of_not_less (x := applicantBPhysics) (y := applicantA)
      (by exact less_A_B.1)]
    rfl
  have p2 : departmentPass 1 1 [applicantBPhysics, applicantA] chemDepName =
      some [applicantAChemistry, applicantBPhysics] := by
    rw [departmentPass, sort_pair_of_less (x := applicantBPhysics) (y := applicantA)
      (by exact less_A_B.2.1)]
    rfl
  have p3 : departmentPass 1 1 [applicantAChemistry, applicantBPhysics] comSciDepName =
      some [applicantBPhysics, applicantAChemistry] := by
    rw [departmentPass, sort_pair_of_less (x := applicantAChemistry) (y := applicantBPhysics)
      (by exact less_B_A.2.2.1)]
    rfl
  have p4 : departmentPass 1 1 [applicantBPhysics, applicantAChemistry] mathDepName =
      some [applicantBPhysics, applicantAChemistry] := by
    rw [departmentPass, sort_pair_of_not_less (x := applicantBPhysics)
      (y := applicantAChemistry) (by exact less_A_B.2.2.2.1)]
    rfl
  have p5 : departmentPass 1 1 [applicantBPhysics, applicantAChemistry] physDepName =
      some [applicantBPhysics, applicantAChemistry] := by
    rw [departmentPass, sort_pair_of_not_less (x := applicantBPhysics)
      (y := applicantAChemistry) (by exact less_A_B.2.2.2.2)]
    rfl
  simp only [assignDepartmentsByFlow, departmentNames, List.foldlM_cons, List.foldlM_nil, p1, p2,
    p3, p4, p5, Option.bind_eq_bind, Option.some_bind]
  rfl

/-- C13 (preference index discipline). From any pool state with three preferences
each, for every capacity and flow `k < 3`, `assignDepartmentsByFlow max k` returns a
pool that is position by position related to a permutation of the input: an applicant
is unchanged, or was unassigned and is now assigned to the entry at index `k` of its
own preference list. Scenario (capacity 1): Ada lists Physics, Chemistry, Mathematics;
in flow 0 Ben takes the Physics seat and Ada stays unassigned although Chemistry has a
free seat; she receives Chemistry in flow 1. -/
theorem preference_index_discipline (max : Int) (pool : applications)
    (h3 : threePreferences pool) (k : Nat) (hk : k < 3) :
    (∃ next, assignDepartmentsByFlow max k pool = some next ∧
      ∃ before : applications, before.Perm pool ∧
        List.Forall₂
          (fun a b => b = a ∨ (a.assignedDepartment = noneName ∧ ∃ dep ∈ departmentNames,
            a.departments[k]? = some dep ∧ b = { a with assignedDepartment := dep }))
          before next) ∧
    (applicantA.departments = [physDepName, chemDepName, mathDepName] ∧
      assignDepartmentsByFlow 1 0 [applicantA, applicantB] =
        some [applicantBPhysics, applicantA] ∧
      (countAssigned [applicantBPhysics, applicantA] chemDepName : Int) < 1 ∧
      assignDepartmentsByFlow 1 1 [applicantBPhysics, applicantA] =
        some [applicantBPhysics, applicantAChemistry]) := by
  refine ⟨?_, rfl, scenario_flow_zero, by decide, scenario_flow_one⟩
  obtain ⟨next, hrun, -, hrel⟩ := flow_assigns max hk h3
  exact ⟨next, hrun, hrel⟩

theorem preference_index_discipline_witness :
    threePreferences examplePool ∧ (0 : Nat) < 3 ∧
      ∃ next, assignDepartmentsByFlow 1 0 examplePool = some next ∧
        ∃ before : applications, before.Perm examplePool ∧
          List.Forall₂
            (fun a b => b = a ∨ (a.assignedDepartment = noneName ∧ ∃ dep ∈ departmentNames,
              a.departments[0]? = some dep ∧ b = { a with assignedDepartment := dep }))
            before next :=
  ⟨examplePool_three, by decide,
    (preference_index_discipline 1 examplePool examplePool_three 0 (by decide)).1⟩


/-! Uniqueness of the sorted arrangement -/

theorem distinctNames_perm {p q : applications} (h : p.Perm q) (hp : distinctNames p) :
    distinctNames q :=
  (h.map _).nodup_iff.mp hp

theorem eq_of_fullName_eq {pool : applications} (hn : distinctNames pool) {a b : application}
    (ha : a ∈ pool) (hb : b ∈ pool) (h : a.name.getFullName = b.name.getFullName) : a = b :=
  List.inj_on_of_nodup_map hn ha hb h

theorem rankedBefore_antisymm {d : depName} {pool : applications} (hn : distinctNames pool)
    {a b : application} (ha : a ∈ pool) (hb : b ∈ pool) (hab : rankedBefore d a b)
    (hba : rankedBefore d b a) : a = b := by
  have he : specScore d a = specScore d b := le_antisymm hba.1 hab.1
  exact eq_of_fullName_eq hn ha hb (le_antisymm (hab.2 he) (hba.2 he.symm))

/-- With pairwise distinct full names there is one arrangement of a pool that
respects the order of a department. -/
theorem sorted_unique {d : depName} {l₁ l₂ : applications} (hperm : l₁.Perm l₂)
    (hn : distinctNames l₁) (h₁ : l₁.Pairwise (rankedBefore d))
    (h₂ : l₂.Pairwise (rankedBefore d)) : l₁ = l₂ :=
  List.Perm.eq_of_sorted
    (fun _ _ ha hb hab hba => rankedBefore_antisymm hn ha (hperm.symm.subset hb) hab hba)
    h₁ h₂ hperm

theorem pairwise_less_iff {d : depName} (hd : d ∈ departmentNames) (l : applications) :
    l.Pairwise (fun a b => less d b a = false) ↔ l.Pairwise (rankedBefore d) := by
  constructor
  · intro h
    exact h.imp (fun hab => (less_eq_false_iff hd _ _).mp hab)
  · intro h
    exact h.imp (fun hab => (less_eq_false_iff hd _ _).mpr hab)

theorem sort_eq_of_perm {d : depName} (hd : d ∈ departmentNames) {p q : applications}
    (hperm : p.Perm q) (hn : distinctNames p) :
    applications.sort p d = applications.sort q d :=
  sorted_unique (((sort_perm p d).trans hperm).trans (sort_perm q d).symm)
    (distinctNames_perm (sort_perm p d).symm hn) (sort_pairwise p hd) (sort_pairwise q hd)

theorem sortsBy_eq_sort {srt : applications → depName → applications} (hs : SortsBy srt)
    {d : depName} (hd : d ∈ departmentNames) {pool : applications} (hn : distinctNames pool) :
    srt pool d = applications.sort pool d :=
  sorted_unique ((hs pool d hd).1.trans (sort_perm pool d).symm)
    (distinctNames_perm (hs pool d hd).1.symm hn)
    ((pairwise_less_iff hd _).mp (hs pool d hd).2) (sort_pairwise pool hd)

/-- The insertion sort meets the contract, and so does the insertion sort of the
reversed pool, a routine that treats unordered applicants the other way round. -/
theorem sortsBy_sort : SortsBy applications.sort :=
  fun apps d hd => ⟨sort_perm apps d, (pairwise_less_iff hd _).mpr (sort_pairwise apps hd)⟩

theorem sortsBy_sort_reverse : SortsBy (fun apps d => applications.sort apps.reverse d) :=
  fun apps d hd => ⟨(sort_perm apps.reverse d).trans (List.reverse_perm apps),
    (pairwise_less_iff hd _).mpr (sort_pairwise apps.reverse hd)⟩

theorem assignDepartmentsWith_sort (max : Int) (pool : applications) :
    assignDepartmentsWith applications.sort max pool = assignDepartments max pool :=
  rfl

theorem writeToFilesWith_sort (apps : applications) :
    writeToFilesWith applications.sort apps = writeToFiles apps :=
  rfl

theorem evolves_distinctNames {p q : applications} (h : Evolves p q) (hp : distinctNames p) :
    distinctNames q := by
  have hperm := h.map_record
  have hnames := hperm.map (fun a : application => a.name.getFullName)
  simp only [List.map_map] at hnames
  have h1 : (fun a : application => a.name.getFullName) ∘ application.record =
      fun a : application => a.name.getFullName := rfl
  rw [h1] at hnames
  exact hnames.symm.nodup_iff.mp hp

theorem foldlM_congr_invariant {σ α : Type} (f g : σ → α → Option σ) (Inv : σ → Prop)
    (l : List α) (hfg : ∀ s, ∀ x ∈ l, Inv s → f s x = g s x)
    (hinv : ∀ s, ∀ x ∈ l, ∀ s', Inv s → g s x = some s' → Inv s') :
    ∀ s, Inv s → l.foldlM f s = l.foldlM g s := by
  induction l with
  | nil => intro s _; rfl
  | cons x xs ih =>
    intro s hs
    rw [List.foldlM_cons, List.foldlM_cons, hfg s x (List.mem_cons_self _ _) hs]
    cases hg : g s x with
    | none => rfl
    | some s' =>
      simp only [Option.bind_eq_bind, Option.some_bind]
      exact ih (fun s y hy => hfg s y (List.mem_cons_of_mem _ hy))
        (fun s y hy => hinv s y (List.mem_cons_of_mem _ hy)) s'
        (hinv s x (List.mem_cons_self _ _) s' hs hg)

theorem assignDepartmentsWith_eq_fold (srt : applications → depName → applications)
    (max : Int) (pool : applications) :
    assignDepartmentsWith srt max pool =
      schedule.foldlM (fun pool p => assignLoop max p.1 p.2 [] (srt pool p.2)) pool := by
  rw [schedule_eq]
  simp only [assignDepartmentsWith, departmentNames, show List.range 3 = [0, 1, 2] from rfl,
    List.foldlM_cons, List.foldlM_nil, bind_assoc, pure_bind]

/-- With distinct full names the run does not depend on the sorting routine. -/
theorem assignDepartmentsWith_eq {srt : applications → depName → applications}
    (hs : SortsBy srt) (max : Int) {pool : applications} (h3 : threePreferences pool)
    (hn : distinctNames pool) :
    assignDepartmentsWith srt max pool = assignDepartments max pool := by
  rw [assignDepartmentsWith_eq_fold, assignDepartments_eq_runPasses, runPasses]
  refine foldlM_congr_invariant _ _ (fun s => threePreferences s ∧ distinctNames s) schedule
    ?_ ?_ pool ⟨h3, hn⟩
  · intro s p hp hs'
    rw [departmentPass, sortsBy_eq_sort hs (mem_schedule_iff.mp hp).2 hs'.2]
  · intro s p hp s' hs' hrun
    obtain ⟨t, ht, h3t, hev, -⟩ := pass_evolves max (mem_schedule_iff.mp hp) hs'.1
    rw [ht] at hrun
    cases hrun
    exact ⟨h3t, evolves_distinctNames hev hs'.2⟩

theorem writeToFilesWith_eq {srt : applications → depName → applications}
    (hs : SortsBy srt) {apps : applications} (hn : distinctNames apps) :
    writeToFilesWith srt apps = writeToFiles apps := by
  have key : ∀ (deps : List depName), (∀ d ∈ deps, d ∈ departmentNames) →
      ∀ (st : applications × List (String × List rosterLine)), distinctNames st.1 →
        deps.foldl
          (fun st dep => (srt st.1 dep, st.2 ++ [(fileName dep, rosterLines (srt st.1 dep) dep)]))
          st =
        deps.foldl
          (fun st dep =>
            (applications.sort st.1 dep,
              st.2 ++ [(fileName dep, rosterLines (applications.sort st.1 dep) dep)]))
          st := by
    intro deps
    induction deps with
    | nil => intro _ st _; rfl
    | cons d ds ih =>
      intro hds st hst
      have hd := hds d (List.mem_cons_self _ _)
      rw [List.foldl_cons, List.foldl_cons, sortsBy_eq_sort hs hd hst]
      exact ih (fun x hx => hds x (List.mem_cons_of_mem _ hx)) _
        (distinctNames_perm (sort_perm st.1 d).symm hst)
  exact key departmentNames (fun d hd => hd) (apps, []) hn


/-! Applicants the comparator leaves unordered -/

theorem less_of_same_key (d : depName) {a b : application} (hs : a.scores = b.scores)
    (hn : a.name = b.name) : less d a b = false := by
  unfold less
  simp only [hs, hn, ne_eq, not_true_eq_false, if_false, lt_self_iff_false, decide_False,
    ite_self]

theorem foldl_insertSlice_of_never {α : Type} (lt : α → α → Bool) :
    ∀ (data acc : List α), (∀ a ∈ acc ++ data, ∀ b ∈ acc ++ data, lt a b = false) →
      data.foldl (fun acc x => insertSlice lt x acc) acc = acc ++ data := by
  have hins : ∀ (x : α) (acc : List α), (∀ y ∈ acc, lt x y = false) →
      insertSlice lt x acc = acc ++ [x] := by
    intro x acc
    induction acc with
    | nil => intro _; rfl
    | cons y ys ih =>
      intro h
      simp only [insertSlice, h y (List.mem_cons_self _ _), Bool.false_eq_true, if_false,
        List.cons_append]
      rw [ih (fun z hz => h z (List.mem_cons_of_mem _ hz))]
  intro data
  induction data with
  | nil => intro acc _; simp
  | cons x xs ih =>
    intro acc h
    rw [List.foldl_cons, hins x acc (fun y hy => h x (by simp) y (by simp [hy]))]
    rw [ih (acc ++ [x]) (by simpa using h)]
    simp

theorem sort_of_same_key {pool : applications} {s : scores} {n : name}
    (h : ∀ a ∈ pool, a.scores = s ∧ a.name = n) (d : depName) :
    applications.sort pool d = pool := by
  have := foldl_insertSlice_of_never (less d) pool []
    (fun a ha b hb => less_of_same_key d
      ((h a (by simpa using ha)).1.trans (h b (by simpa using hb)).1.symm)
      ((h a (by simpa using ha)).2.trans (h b (by simpa using hb)).2.symm))
  simpa [applications.sort, sortSlice] using this

theorem assignLoop_records (max : Int) (flow : Nat) (dep : depName) :
    ∀ (rest done out : applications), assignLoop max flow dep done rest = some out →
      out.map application.record = (done ++ rest).map application.record := by
  intro rest
  induction rest with
  | nil =>
    intro done out h
    simp only [assignLoop, Option.some.injEq] at h
    simp [h]
  | cons app rest ih =>
    intro done out h
    rw [assignLoop] at h
    cases hget : app.departments[flow]? with
    | none => simp [hget] at h
    | some d =>
      simp only [hget] at h
      split_ifs at h
      all_goals
        have := ih _ _ h
        simpa [application.record] using this

theorem runPasses_eq_runLoops (max : Int) {s : scores} {n : name}
    (passes : List (Nat × depName)) :
    ∀ pool : applications, (∀ a ∈ pool, a.scores = s ∧ a.name = n) →
      runPasses max passes pool = runLoops max passes pool := by
  induction passes with
  | nil => intro pool _; rfl
  | cons p ps ih =>
    intro pool h
    simp only [runPasses, runLoops, List.foldlM_cons, departmentPass, sort_of_same_key h]
    cases hrun : assignLoop max p.1 p.2 [] pool with
    | none => rfl
    | some out =>
      simp only [Option.bind_eq_bind, Option.some_bind]
      have hrec := assignLoop_records max p.1 p.2 pool [] out hrun
      have hout : ∀ b ∈ out, b.scores = s ∧ b.name = n := by
        intro b hb
        have hb' : b.record ∈ out.map application.record := List.mem_map_of_mem _ hb
        rw [hrec] at hb'
        obtain ⟨a, ha, hab⟩ := List.mem_map.mp hb'
        have ha' := h a (by simpa using ha)
        have e1 : b.scores = a.scores :=
          show b.record.scores = a.record.scores from congrArg application.scores hab.symm
        have e2 : b.name = a.name :=
          show b.record.name = a.record.name from congrArg application.name hab.symm
        exact ⟨e1.trans ha'.1, e2.trans ha'.2⟩
      exact ih out hout

/-- C11, as stated, fails: `twinFirst` and `twinSecond` have the same full name and
the same scores, so both arrangements of the two respect the Physics comparator, yet
they are different sequences; and the run depends on the arrangement: with capacity 1
the Physics seat goes to whichever twin comes first, and the other one ends in a
different department (Biotech for `twinSecond`, Chemistry for `twinFirst`). -/
theorem ordering_counterexample :
    [twinFirst, twinSecond].Perm [twinSecond, twinFirst] ∧
    [twinFirst, twinSecond].Pairwise (fun a b => less physDepName b a = false) ∧
    [twinSecond, twinFirst].Pairwise (fun a b => less physDepName b a = false) ∧
    [twinFirst, twinSecond] ≠ [twinSecond, twinFirst] ∧
    assignDepartments 1 [twinFirst, twinSecond] =
      some [{ twinFirst with assignedDepartment := physDepName },
        { twinSecond with assignedDepartment := bioDepName }] ∧
    assignDepartments 1 [twinSecond, twinFirst] =
      some [{ twinSecond with assignedDepartment := physDepName },
        { twinFirst with assignedDepartment := chemDepName }] := by
  have h12 : less physDepName twinFirst twinSecond = false := less_of_same_key _ rfl rfl
  have h21 : less physDepName twinSecond twinFirst = false := less_of_same_key _ rfl rfl
  have hk1 : ∀ a ∈ [twinFirst, twinSecond],
      a.scores = twinFirst.scores ∧ a.name = twinFirst.name := by
    intro a ha
    simp only [List.mem_cons, List.mem_singleton, List.mem_nil_iff, or_false] at ha
    rcases ha with rfl | rfl <;> exact ⟨rfl, rfl⟩
  have hk2 : ∀ a ∈ [twinSecond, twinFirst],
      a.scores = twinFirst.scores ∧ a.name = twinFirst.name := by
    intro a ha
    simp only [List.mem_cons, List.mem_singleton, List.mem_nil_iff, or_false] at ha
    rcases ha with rfl | rfl <;> exact ⟨rfl, rfl⟩
  refine ⟨List.Perm.swap _ _ _, ?_, ?_, ?_, ?_, ?_⟩
  · simp [h21]
  · simp [h12]
  · intro h
    have hd : twinFirst.departments = twinSecond.departments :=
      congrArg application.departments (List.cons.inj h).1
    exact absurd hd (by decide)
  · rw [assignDepartments_eq_runPasses, runPasses_eq_runLoops 1 schedule _ hk1]
    rfl
  · rw [assignDepartments_eq_runPasses, runPasses_eq_runLoops 1 schedule _ hk2]
    rfl

theorem examplePool_distinct : distinctNames examplePool := by
  unfold distinctNames
  decide

/-- C11, amended. For a pool whose full names are pairwise distinct: any two
arrangements of the pool that both respect the comparator of one of the five
departments are the same sequence; and for every sorting routine that returns a
permutation respecting the comparator, the run of `assignDepartments` with that
routine returns the same final pool as with the insertion sort, and `writeToFiles`
with that routine writes the same files. -/
theorem ordering_determined (pool : applications) (hn : distinctNames pool) :
    (∀ d ∈ departmentNames, ∀ l₁ l₂ : applications, l₁.Perm pool → l₂.Perm pool →
      l₁.Pairwise (fun a b => less d b a = false) →
      l₂.Pairwise (fun a b => less d b a = false) → l₁ = l₂) ∧
    (∀ (max : Int) (srt : applications → depName → applications),
      threePreferences pool → SortsBy srt →
      ∃ final, assignDepartmentsWith srt max pool = some final ∧
        assignDepartments max pool = some final ∧
        writeToFilesWith srt final = writeToFiles final) := by
  constructor
  · intro d hd l₁ l₂ h₁ h₂ hs₁ hs₂
    exact sorted_unique (h₁.trans h₂.symm) (distinctNames_perm h₁.symm hn)
      ((pairwise_less_iff hd l₁).mp hs₁) ((pairwise_less_iff hd l₂).mp hs₂)
  · intro max srt h3 hs
    obtain ⟨final, hrun, -, hev⟩ :=
      runPasses_evolves max schedule (fun p hp => mem_schedule_iff.mp hp) h3
    rw [← assignDepartments_eq_runPasses] at hrun
    refine ⟨final, ?_, hrun, writeToFilesWith_eq hs (evolves_distinctNames hev hn)⟩
    rw [assignDepartmentsWith_eq hs max h3 hn, hrun]

theorem ordering_determined_witness :
    distinctNames examplePool ∧ threePreferences examplePool ∧
      SortsBy (fun apps d => applications.sort apps.reverse d) ∧
      ∃ final,
        assignDepartmentsWith (fun apps d => applications.sort apps.reverse d) 1 examplePool =
          some final ∧
        assignDepartments 1 examplePool = some final ∧
        writeToFilesWith (fun apps d => applications.sort apps.reverse d) final =
          writeToFiles final :=
  ⟨examplePool_distinct, examplePool_three, sortsBy_sort_reverse,
    (ordering_determined examplePool examplePool_distinct).2 1 _ examplePool_three
      sortsBy_sort_reverse⟩

/-- C17 (input-order independence). For two pools that are permutations of one
another, with pairwise distinct full names and three preferences each, and every
capacity, `assignDepartments` returns the same final pool from both; so applicants
with the same full name have the same final department in both results, and the
files written from the two results are identical. -/
theorem input_order_independence (max : Int) (p₁ p₂ : applications) (hperm : p₁.Perm p₂)
    (hn : distinctNames p₁) (h3 : threePreferences p₁) :
    ∃ f₁ f₂, assignDepartments max p₁ = some f₁ ∧ assignDepartments max p₂ = some f₂ ∧
      f₁ = f₂ ∧
      (∀ a ∈ f₁, ∀ b ∈ f₂, a.name.getFullName = b.name.getFullName →
        a.assignedDepartment = b.assignedDepartment) ∧
      (writeToFiles f₁).2 = (writeToFiles f₂).2 := by
  obtain ⟨final, hrun, -, hev⟩ :=
    runPasses_evolves max schedule (fun p hp => mem_schedule_iff.mp hp) h3
  have hfirst : departmentPass max 0 p₁ bioDepName = departmentPass max 0 p₂ bioDepName := by
    rw [departmentPass, departmentPass, sort_eq_of_perm (by decide) hperm hn]
  have hsame : runPasses max schedule p₁ = runPasses max schedule p₂ := by
    rw [schedule_eq]
    simp only [runPasses, List.foldlM_cons, hfirst]
  have hfn : distinctNames final := evolves_distinctNames hev hn
  refine ⟨final, final, ?_, ?_, rfl, ?_, rfl⟩
  · rw [assignDepartments_eq_runPasses]; exact hrun
  · rw [assignDepartments_eq_runPasses, ← hsame]; exact hrun
  · intro a ha b hb hab
    rw [eq_of_fullName_eq hfn ha hb hab]

theorem input_order_independence_witness :
    examplePool.Perm examplePool.reverse ∧ distinctNames examplePool ∧
      threePreferences examplePool ∧
      ∃ f₁ f₂, assignDepartments 1 examplePool = some f₁ ∧
        assignDepartments 1 examplePool.reverse = some f₂ ∧ f₁ = f₂ ∧
        (∀ a ∈ f₁, ∀ b ∈ f₂, a.name.getFullName = b.name.getFullName →
          a.assignedDepartment = b.assignedDepartment) ∧
        (writeToFiles f₁).2 = (writeToFiles f₂).2 :=
  ⟨(List.reverse_perm examplePool).symm, examplePool_distinct, examplePool_three,
    input_order_independence 1 examplePool examplePool.reverse
      (List.reverse_perm examplePool).symm examplePool_distinct examplePool_three⟩


/-! The department pass as a top-`r` selection -/

theorem eligible_iff {flow : Nat} {dep : depName} {app : application} :
    eligible flow dep app = true ↔
      app.assignedDepartment = noneName ∧ app.departments[flow]? = some dep := by
  simp [eligible]

theorem assignBest_zero (flow : Nat) (dep : depName) (l : applications) :
    assignBest flow dep 0 l = l := by
  cases l <;> rfl

theorem assignBest_nil (flow : Nat) (dep : depName) (r : Nat) :
    assignBest flow dep r [] = [] := by
  cases r <;> rfl

theorem assignBest_cons_of_not {flow : Nat} {dep : depName} {app : application}
    (h : eligible flow dep app = false) (r : Nat) (rest : applications) :
    assignBest flow dep r (app :: rest) = app :: assignBest flow dep r rest := by
  cases r with
  | zero => rw [assignBest_zero, assignBest_zero]
  | succ r => simp [assignBest, h]

theorem assignBest_cons_of_eligible {flow : Nat} {dep : depName} {app : application}
    (h : eligible flow dep app = true) (r : Nat) (rest : applications) :
    assignBest flow dep (r + 1) (app :: rest) =
      { app with assignedDepartment := dep } :: assignBest flow dep r rest := by
  simp [assignBest, h]

/-- The loop with its live capacity check computes the top-`r` selection, where `r`
is the number of free seats when the loop is entered. -/
theorem assignLoop_eq_assignBest (max : Int) (flow : Nat) {dep : depName}
    (hdep : dep ≠ noneName) :
    ∀ (rest done : applications), (∀ a ∈ rest, flow < a.departments.length) →
      assignLoop max flow dep done rest =
        some (done ++ assignBest flow dep (remaining max (done ++ rest) dep) rest) := by
  intro rest
  induction rest with
  | nil => intro done _; simp [assignLoop, assignBest_nil]
  | cons app rest ih =>
    intro done hlen
    have hlen' : ∀ a ∈ rest, flow < a.departments.length :=
      fun a ha => hlen a (List.mem_cons_of_mem _ ha)
    have happ : flow < app.departments.length := hlen app (List.mem_cons_self _ _)
    have hget : app.departments[flow]? = some app.departments[flow] :=
      List.getElem?_eq_getElem happ
    rw [assignLoop, hget]
    simp only
    by_cases hd : app.departments[flow] = dep
    · by_cases hn : app.assignedDepartment = noneName
      · have hel : eligible flow dep app = true := eligible_iff.mpr ⟨hn, hd ▸ hget⟩
        have hnd : app.assignedDepartment ≠ dep := by rw [hn]; exact Ne.symm hdep
        by_cases hc : (countAssigned (done ++ app :: rest) dep : Int) < max
        · -- a free seat: the applicant is taken
          rw [if_neg (not_not.mpr hd), if_pos ⟨hd, hn, hc⟩, ih _ hlen']
          have hrem : remaining max (done ++ app :: rest) dep =
              remaining max ((done ++ [{ app with assignedDepartment := dep }]) ++ rest) dep
                + 1 := by
            simp only [remaining, countAssigned_append, countAssigned_cons, countAssigned_nil,
              if_neg hnd, if_true] at hc ⊢
            push_cast at hc ⊢
            omega
          rw [hrem, assignBest_cons_of_eligible hel]
          simp
        · -- the department is full
          rw [if_neg (not_not.mpr hd), if_neg (fun h => hc h.2.2), ih _ hlen']
          have hrem : remaining max (done ++ app :: rest) dep = 0 := by
            simp only [remaining]
            omega
          have hrem' : remaining max ((done ++ [app]) ++ rest) dep = 0 := by
            simpa [List.append_assoc] using hrem
          rw [hrem, hrem', assignBest_zero, assignBest_zero]
          simp
      · -- already assigned
        have hel : eligible flow dep app = false := by
          rw [Bool.eq_false_iff]
          exact fun h => hn (eligible_iff.mp h).1
        rw [if_neg (not_not.mpr hd), if_neg (fun h => hn h.2.1), ih _ hlen',
          assignBest_cons_of_not hel]
        simp
    · -- another department at this index
      have hel : eligible flow dep app = false := by
        rw [Bool.eq_false_iff]
        intro h
        have := (eligible_iff.mp h).2
        rw [hget] at this
        exact hd (Option.some.inj this)
      rw [if_pos hd, ih _ hlen', assignBest_cons_of_not hel]
      simp

theorem departmentPass_eq_assignBest (max : Int) {flow : Nat} {dep : depName}
    (hdep : dep ≠ noneName) {pool : applications}
    (hp : ∀ a ∈ pool, flow < a.departments.length) :
    departmentPass max flow pool dep =
      some (assignBest flow dep (remaining max pool dep) (applications.sort pool dep)) := by
  have h := assignLoop_eq_assignBest max flow hdep (applications.sort pool dep) []
    (fun a ha => hp a (mem_sort.mp ha))
  have hrem : remaining max ([] ++ applications.sort pool dep) dep = remaining max pool dep := by
    simp [remaining, countAssigned_perm (sort_perm pool dep) dep]
  rw [hrem] at h
  simpa [departmentPass] using h

/-- The multiset of a top-`r` selection: the first `r` eligible applicants assigned,
the other eligible applicants and all others unchanged. -/
theorem assignBest_perm (flow : Nat) (dep : depName) :
    ∀ (l : applications) (r : Nat),
      (assignBest flow dep r l).Perm
        ((((l.filter (eligible flow dep)).take r).map
            (fun a => { a with assignedDepartment := dep })) ++
          (l.filter (eligible flow dep)).drop r ++
          l.filter (fun a => !eligible flow dep a)) := by
  intro l
  induction l with
  | nil => intro r; simp [assignBest_nil]
  | cons app rest ih =>
    intro r
    cases r with
    | zero =>
      rw [assignBest_zero]
      simpa using (List.filter_append_perm (eligible flow dep) (app :: rest)).symm
    | succ r =>
      by_cases hel : eligible flow dep app = true
      · rw [assignBest_cons_of_eligible hel]
        simp only [List.filter_cons, hel, if_true, List.take_succ_cons, List.map_cons,
          List.drop_succ_cons, Bool.not_true, Bool.false_eq_true, if_false, List.cons_append]
        exact List.Perm.cons _ (ih r)
      · have hel' : eligible flow dep app = false := by simpa using hel
        rw [assignBest_cons_of_not hel']
        simp only [List.filter_cons, hel', Bool.false_eq_true, if_false, Bool.not_false, if_true]
        exact (List.Perm.cons _ (ih (r + 1))).trans List.perm_middle.symm


theorem insertSlice_filter_of_not {α : Type} (lt : α → α → Bool) (p : α → Bool) {x : α}
    (hx : p x = false) (l : List α) :
    (insertSlice lt x l).filter p = l.filter p := by
  induction l with
  | nil => simp [insertSlice, hx]
  | cons y ys ih =>
    simp only [insertSlice]
    split
    · simp [List.filter_cons, hx]
    · simp only [List.filter_cons, ih]

theorem insertSlice_of_head {α : Type} (lt : α → α → Bool) (x : α) (l : List α)
    (h : ∀ z ∈ l, lt x z = true) : insertSlice lt x l = x :: l := by
  cases l with
  | nil => rfl
  | cons y ys => simp [insertSlice, h y (List.mem_cons_self _ _)]

theorem insertSlice_filter_of_pos {α : Type} (lt : α → α → Bool) (R : α → α → Prop)
    (hiff : ∀ a b, lt a b = false ↔ R b a) (htrans : ∀ a b c, R a b → R b c → R a c)
    (p : α → Bool) {x : α} (hx : p x = true) (l : List α) (hl : l.Pairwise R) :
    (insertSlice lt x l).filter p = insertSlice lt x (l.filter p) := by
  induction l with
  | nil => simp [insertSlice, hx]
  | cons y ys ih =>
    rw [List.pairwise_cons] at hl
    simp only [insertSlice]
    by_cases hxy : lt x y = true
    · rw [if_pos hxy]
      have hall : ∀ z ∈ (y :: ys).filter p, lt x z = true := by
        intro z hz
        have hz' : z ∈ y :: ys := (List.mem_filter.mp hz).1
        rcases List.mem_cons.mp hz' with rfl | hzy
        · exact hxy
        · by_contra hne
          have hzx : R z x := (hiff x z).mp (by simpa using hne)
          have hyx : R y x := htrans _ _ _ (hl.1 z hzy) hzx
          have := (hiff x y).mpr hyx
          rw [hxy] at this
          exact Bool.noConfusion this
      rw [insertSlice_of_head lt x _ hall]
      simp [List.filter_cons, hx]
    · rw [if_neg hxy]
      by_cases hy : p y = true
      · simp only [List.filter_cons, hy, if_true, insertSlice, if_neg hxy, ih hl.2]
      · simp only [List.filter_cons, hy, if_false, ih hl.2, Bool.false_eq_true]

/-- Filtering commutes with the insertion sort of a comparator that is the strict
part of a transitive total order. -/
theorem sortSlice_filter {α : Type} (lt : α → α → Bool) (R : α → α → Prop)
    (hiff : ∀ a b, lt a b = false ↔ R b a) (htrue : ∀ a b, lt a b = true → R a b)
    (htrans : ∀ a b c, R a b → R b c → R a c) (p : α → Bool) (data : List α) :
    (sortSlice lt data).filter p = sortSlice lt (data.filter p) := by
  have key : ∀ (data acc : List α), acc.Pairwise R →
      (data.foldl (fun acc x => insertSlice lt x acc) acc).filter p =
        (data.filter p).foldl (fun acc x => insertSlice lt x acc) (acc.filter p) := by
    intro data
    induction data with
    | nil => intro acc _; rfl
    | cons x xs ih =>
      intro acc hacc
      have hins := insertSlice_pairwise lt R (fun a b h => (hiff a b).mp h) htrue htrans x acc hacc
      rw [List.foldl_cons, ih _ hins]
      by_cases hx : p x = true
      · rw [List.filter_cons, if_pos hx, List.foldl_cons,
          insertSlice_filter_of_pos lt R hiff htrans p hx acc hacc]
      · have hx' : p x = false := by simpa using hx
        rw [List.filter_cons, if_neg hx, insertSlice_filter_of_not lt p hx']
  simpa [sortSlice] using key data [] List.Pairwise.nil

theorem sort_filter {d : depName} (hd : d ∈ departmentNames) (p : application → Bool)
    (pool : applications) :
    (applications.sort pool d).filter p = applications.sort (pool.filter p) d :=
  sortSlice_filter (less d) (rankedBefore d) (fun a b => less_eq_false_iff hd a b)
    (fun _ _ h => rankedBefore_of_less hd h) (fun _ _ _ => rankedBefore_trans) p pool

/-- C14 (the greedy pass is a top-`r` selection). From any pool state with three
preferences each, for flow `k < 3`, a department `d` of the five and any capacity,
let `E` be the eligible applicants (unassigned, `departments[k] = d`) in the order of
the pool sorted for `d` and `r = max - countAssigned d`, 0 if negative. The pass
returns the sorted pool in which the first `r` eligible applicants are assigned to `d`
and nobody else is changed; as a multiset its result is the first `min(r, |E|)`
applicants of `E` assigned to `d`, the rest of `E` unchanged and all other applicants
unchanged. When the full names of the pool are pairwise distinct, `E` is moreover the
same list for every sorting routine that returns a sorted permutation, and it is what
such a routine returns on the eligible applicants filtered out first (with equal name
and score a routine that is not stable may rank two applicants differently in the two
procedures, so this part is stated for distinct names only). -/
theorem pass_is_top_selection (max : Int) (pool : applications) (k : Nat) (d : depName)
    (h3 : threePreferences pool) (hk : k < 3) (hd : d ∈ departmentNames) :
    ∃ next, departmentPass max k pool d = some next ∧
      next = assignBest k d (remaining max pool d) (applications.sort pool d) ∧
      next.Perm
        ((((eligibleRanked k d pool).take (remaining max pool d)).map
            (fun a => { a with assignedDepartment := d })) ++
          (eligibleRanked k d pool).drop (remaining max pool d) ++
          (applications.sort pool d).filter (fun a => !eligible k d a)) ∧
      ((eligibleRanked k d pool).take (remaining max pool d)).length =
        min (remaining max pool d) (eligibleRanked k d pool).length ∧
      (distinctNames pool → ∀ srt : applications → depName → applications, SortsBy srt →
        (srt pool d).filter (eligible k d) = eligibleRanked k d pool ∧
          srt (pool.filter (eligible k d)) d = eligibleRanked k d pool) := by
  refine ⟨_, departmentPass_eq_assignBest max (ne_noneName_of_mem hd) (flow_lt_of_three h3 hk),
    rfl, assignBest_perm k d _ _, List.length_take _ _, ?_⟩
  intro hn srt hs
  have hfiltered : distinctNames (pool.filter (eligible k d)) :=
    ((List.filter_sublist pool).map _).nodup hn
  constructor
  · rw [sortsBy_eq_sort hs hd hn]
    rfl
  · rw [sortsBy_eq_sort hs hd hfiltered, ← sort_filter hd]
    rfl

theorem pass_is_top_selection_witness :
    threePreferences examplePool ∧ (0 : Nat) < 3 ∧ physDepName ∈ departmentNames ∧
      distinctNames examplePool ∧
      SortsBy (fun apps dep => applications.sort apps.reverse dep) ∧
      ∃ next, departmentPass 1 0 examplePool physDepName = some next ∧
        next = assignBest 0 physDepName (remaining 1 examplePool physDepName)
          (applications.sort examplePool physDepName) ∧
        (applications.sort examplePool.reverse physDepName).filter (eligible 0 physDepName) =
          eligibleRanked 0 physDepName examplePool ∧
        applications.sort (examplePool.filter (eligible 0 physDepName)).reverse physDepName =
          eligibleRanked 0 physDepName examplePool :=
  ⟨examplePool_three, by decide, by decide, examplePool_distinct, sortsBy_sort_reverse, by
    obtain ⟨next, h1, h2, -, -, h5⟩ :=
      pass_is_top_selection 1 examplePool 0 physDepName examplePool_three (by decide) (by decide)
    obtain ⟨h6, h7⟩ := h5 examplePool_distinct _ sortsBy_sort_reverse
    exact ⟨next, h1, h2, h6, h7⟩⟩


/-! First-choice priority -/

theorem assignBest_assigns (flow : Nat) (dep : depName) :
    ∀ (l : applications) (r : Nat),
      List.Forall₂ (Assigns flow dep) l (assignBest flow dep r l) := by
  intro l
  induction l with
  | nil => intro r; rw [assignBest_nil]; exact List.Forall₂.nil
  | cons app rest ih =>
    intro r
    cases r with
    | zero =>
      rw [assignBest_zero]
      exact List.forall₂_same.mpr (fun a _ => Or.inl rfl)
    | succ r =>
      by_cases hel : eligible flow dep app = true
      · rw [assignBest_cons_of_eligible hel]
        exact List.Forall₂.cons
          (Or.inr ⟨(eligible_iff.mp hel).1, (eligible_iff.mp hel).2, rfl⟩) (ih r)
      · have hel' : eligible flow dep app = false := by simpa using hel
        rw [assignBest_cons_of_not hel']
        exact List.Forall₂.cons (Or.inl rfl) (ih (r + 1))

theorem forall₂_assigns_mem {flow : Nat} {dep : depName} {l l' : applications}
    (h : List.Forall₂ (Assigns flow dep) l l') {b : application} (hb : b ∈ l') :
    ∃ a ∈ l, Assigns flow dep a b := by
  induction h with
  | nil => simp at hb
  | cons hab _ ih =>
    rcases List.mem_cons.mp hb with rfl | hb
    · exact ⟨_, List.mem_cons_self _ _, hab⟩
    · obtain ⟨a, ha, hk⟩ := ih hb
      exact ⟨a, List.mem_cons_of_mem _ ha, hk⟩

theorem mem_of_mem_assignBest {flow : Nat} {dep : depName} (hdep : dep ≠ noneName)
    {l : applications} {r : Nat} {b : application} (hb : b ∈ assignBest flow dep r l)
    (hnone : b.assignedDepartment = noneName) : b ∈ l := by
  obtain ⟨a, ha, hab⟩ := forall₂_assigns_mem (assignBest_assigns flow dep l r) hb
  rcases hab with rfl | ⟨-, -, rfl⟩
  · exact ha
  · exact absurd hnone hdep

theorem rankedBefore_assigned {d : depName} {x a : application} (dep : depName)
    (h : rankedBefore d x a) : rankedBefore d { x with assignedDepartment := dep } a :=
  rankedBefore_of_record (a := x) (b := a) rfl rfl h

/-- On a ranked list in which nobody holds a seat of `dep` yet, if the top-`r`
selection leaves an eligible applicant unassigned, then exactly `r` applicants were
taken, each of them eligible and ranked at or before that applicant. -/
theorem assignBest_first_choice {flow : Nat} {dep : depName} (hdep : dep ≠ noneName) :
    ∀ (l : applications) (r : Nat), l.Pairwise (rankedBefore dep) →
      (∀ x ∈ l, x.assignedDepartment ≠ dep) →
      ∀ a ∈ assignBest flow dep r l, a.assignedDepartment = noneName →
        a.departments[flow]? = some dep →
        countAssigned (assignBest flow dep r l) dep = r ∧
          ∀ x ∈ assignBest flow dep r l, x.assignedDepartment = dep →
            x.departments[flow]? = some dep ∧ rankedBefore dep x a := by
  intro l
  induction l with
  | nil => intro r _ _ a ha; rw [assignBest_nil] at ha; simp at ha
  | cons app rest ih =>
    intro r hpw hfree a ha hnone hpref
    rw [List.pairwise_cons] at hpw
    have hfree' : ∀ x ∈ rest, x.assignedDepartment ≠ dep :=
      fun x hx => hfree x (List.mem_cons_of_mem _ hx)
    cases r with
    | zero =>
      rw [assignBest_zero] at ha ⊢
      exact ⟨countAssigned_eq_zero hfree, fun x hx hxd => absurd hxd (hfree x hx)⟩
    | succ r =>
      by_cases hel : eligible flow dep app = true
      · rw [assignBest_cons_of_eligible hel] at ha ⊢
        have ha' : a ∈ assignBest flow dep r rest := by
          rcases List.mem_cons.mp ha with rfl | ha'
          · exact absurd hnone hdep
          · exact ha'
        obtain ⟨hcount, hall⟩ := ih r hpw.2 hfree' a ha' hnone hpref
        refine ⟨by rw [countAssigned_cons, hcount]; simp; omega, ?_⟩
        intro x hx hxd
        rcases List.mem_cons.mp hx with rfl | hx'
        · exact ⟨(eligible_iff.mp hel).2,
            rankedBefore_assigned dep (hpw.1 a (mem_of_mem_assignBest hdep ha' hnone))⟩
        · exact hall x hx' hxd
      · have hel' : eligible flow dep app = false := by simpa using hel
        rw [assignBest_cons_of_not hel'] at ha ⊢
        have ha' : a ∈ assignBest flow dep (r + 1) rest := by
          rcases List.mem_cons.mp ha with rfl | ha'
          · exact absurd (eligible_iff.mpr ⟨hnone, hpref⟩) hel
          · exact ha'
        obtain ⟨hcount, hall⟩ := ih (r + 1) hpw.2 hfree' a ha' hnone hpref
        have happ : app.assignedDepartment ≠ dep := hfree app (List.mem_cons_self _ _)
        refine ⟨by rw [countAssigned_cons, hcount, if_neg happ]; omega, ?_⟩
        intro x hx hxd
        rcases List.mem_cons.mp hx with rfl | hx'
        · exact absurd hxd happ
        · exact hall x hx' hxd

theorem assigns_eq_of_count_eq {flow : Nat} {dep : depName} (hdep : dep ≠ noneName)
    {l l' : applications} (h : List.Forall₂ (Assigns flow dep) l l')
    (hc : countAssigned l' dep = countAssigned l dep) : l' = l := by
  induction h with
  | nil => rfl
  | @cons a b l l' hab hrest ih =>
    have hmono := assigns_count_le hrest
    rw [countAssigned_cons, countAssigned_cons] at hc
    rcases hab with rfl | ⟨hn, -, rfl⟩
    · rw [ih (by omega)]
    · have hna : a.assignedDepartment ≠ dep := by rw [hn]; exact Ne.symm hdep
      simp only [if_true, if_neg hna] at hc
      omega


theorem firstChoiceOpen_of_allUnassigned {d : depName} (hd : d ∈ departmentNames)
    {pool : applications} (hu : allUnassigned pool) : firstChoiceOpen d pool := by
  intro a ha
  refine ⟨?_, fun _ => hu a ha⟩
  rw [hu a ha]
  exact Ne.symm (ne_noneName_of_mem hd)

/-- A flow-0 pass of another department leaves the department untouched. -/
theorem pass_firstChoiceOpen (max : Int) {d d' : depName} (hd' : d' ∈ departmentNames)
    (hne : d' ≠ d) {pool : applications} (h3 : threePreferences pool)
    (hopen : firstChoiceOpen d pool) :
    ∃ pool', departmentPass max 0 pool d' = some pool' ∧ threePreferences pool' ∧
      firstChoiceOpen d pool' := by
  obtain ⟨pool', hrun, h3', -, hrel⟩ :=
    pass_evolves max (p := (0, d')) ⟨show (0 : Nat) < 3 by decide, hd'⟩ h3
  refine ⟨pool', hrun, h3', ?_⟩
  intro b hb
  obtain ⟨a, ha, hab⟩ := forall₂_assigns_mem hrel hb
  have ha' := hopen a (mem_sort.mp ha)
  rcases hab with rfl | ⟨-, hpref, rfl⟩
  · exact ha'
  · refine ⟨hne, fun h => ?_⟩
    have h' : a.departments[0]? = some d := h
    rw [hpref] at h'
    exact absurd (Option.some.inj h') hne

/-- The flow-0 pass of the department settles it. -/
theorem pass_firstChoiceSettled {max : Int} (hmax : 0 ≤ max) {d : depName}
    (hd : d ∈ departmentNames) {pool : applications} (h3 : threePreferences pool)
    (hopen : firstChoiceOpen d pool) :
    ∃ pool', departmentPass max 0 pool d = some pool' ∧ threePreferences pool' ∧
      firstChoiceSettled max d pool' := by
  have hdn := ne_noneName_of_mem hd
  obtain ⟨pool', hrun, h3', -, hrel⟩ :=
    pass_evolves max (p := (0, d)) ⟨show (0 : Nat) < 3 by decide, hd⟩ h3
  refine ⟨pool', hrun, h3', ?_⟩
  have heq : departmentPass max 0 pool d =
      some (assignBest 0 d (remaining max pool d) (applications.sort pool d)) :=
    departmentPass_eq_assignBest max hdn (flow_lt_of_three h3 (show 0 < 3 by decide))
  rw [hrun] at heq
  have hpool' := Option.some.inj heq
  have hzero : countAssigned pool d = 0 := countAssigned_eq_zero (fun a ha => (hopen a ha).1)
  have hrem : remaining max pool d = max.toNat := by
    simp [remaining, hzero]
  intro a ha hpref hna
  -- the applicant is still unassigned
  have hnone : a.assignedDepartment = noneName := by
    obtain ⟨a0, ha0, hab⟩ := forall₂_assigns_mem hrel ha
    rcases hab with rfl | ⟨-, -, rfl⟩
    · exact (hopen a (mem_sort.mp ha0)).2 hpref
    · exact absurd rfl hna
  have key := assignBest_first_choice hdn (applications.sort pool d) (remaining max pool d)
    (sort_pairwise pool hd) (fun x hx => (hopen x (mem_sort.mp hx)).1) a
    (hpool' ▸ ha) hnone hpref
  rw [← hpool'] at key
  refine ⟨?_, key.2⟩
  rw [key.1, hrem]
  exact Int.toNat_of_nonneg hmax

/-- Every later pass keeps a settled department settled. -/
theorem pass_keeps_settled (max : Int) {d : depName} (hd : d ∈ departmentNames)
    {p : Nat × depName} (hp : p.1 < 3 ∧ p.2 ∈ departmentNames) {pool : applications}
    (h3 : threePreferences pool) (hset : firstChoiceSettled max d pool) :
    ∃ pool', departmentPass max p.1 pool p.2 = some pool' ∧ threePreferences pool' ∧
      firstChoiceSettled max d pool' := by
  obtain ⟨k, d'⟩ := p
  have hdn := ne_noneName_of_mem hd
  obtain ⟨pool', hrun, hrel, hcap, -⟩ :=
    departmentPass_spec max d' (flow_lt_of_three h3 hp.1)
  have hev := evolves_of_pass hp.2 hrel
  refine ⟨pool', hrun, hev.threePreferences h3, ?_⟩
  intro a ha hpref hna
  obtain ⟨a0, ha0, hab⟩ := forall₂_assigns_mem hrel ha
  have ha0' : a0 ∈ pool := mem_sort.mp ha0
  have hrec : a.record = a0.record := (hab.keeps hp.2).record_eq
  have hdeps : a.departments = a0.departments := (hab.keeps hp.2).departments_eq
  have hna0 : a0.assignedDepartment ≠ d := by
    rcases hab with rfl | ⟨hn, -, rfl⟩
    · exact hna
    · rw [hn]; exact Ne.symm hdn
  obtain ⟨hcount, hall⟩ := hset a0 ha0' (hdeps ▸ hpref) hna0
  have hsortcount : countAssigned (applications.sort pool d') d = countAssigned pool d :=
    countAssigned_perm (sort_perm pool d') d
  by_cases hpd : d' = d
  · -- the department's own pass: it is full, nothing changes
    subst hpd
    have hle : (countAssigned pool' d' : Int) ≤ max := hcap (le_of_eq hcount)
    have hge : countAssigned (applications.sort pool d') d' ≤ countAssigned pool' d' :=
      assigns_count_le hrel
    have hceq : countAssigned pool' d' = countAssigned (applications.sort pool d') d' := by
      have h1 : (countAssigned (applications.sort pool d') d' : Int) = max := by
        rw [hsortcount]; exact hcount
      omega
    have hsame : pool' = applications.sort pool d' := assigns_eq_of_count_eq hdn hrel hceq
    refine ⟨by rw [hsame, hsortcount]; exact hcount, ?_⟩
    intro x hx hxd
    have hx' : x ∈ pool := mem_sort.mp (hsame ▸ hx)
    obtain ⟨h1, h2⟩ := hall x hx' hxd
    exact ⟨h1, rankedBefore_of_record rfl hrec h2⟩
  · -- the pass of another department does not touch the seats of `d`
    have hceq : countAssigned pool' d = countAssigned pool d := by
      rw [Assigns.count_eq hrel (Ne.symm hpd) hdn, hsortcount]
    refine ⟨by rw [hceq]; exact hcount, ?_⟩
    intro x hx hxd
    obtain ⟨x0, hx0, hxx⟩ := forall₂_assigns_mem hrel hx
    rcases hxx with rfl | ⟨-, -, rfl⟩
    · obtain ⟨h1, h2⟩ := hall x (mem_sort.mp hx0) hxd
      exact ⟨h1, rankedBefore_of_record rfl hrec h2⟩
    · exact absurd hxd hpd

/-- The schedule around the flow-0 pass of a department. -/
theorem schedule_split {d : depName} (hd : d ∈ departmentNames) :
    ∃ pre post : List (Nat × depName), schedule = pre ++ (0, d) :: post ∧
      (∀ p ∈ pre, p.1 = 0 ∧ p.2 ∈ departmentNames ∧ p.2 ≠ d) ∧
      (∀ p ∈ post, p.1 < 3 ∧ p.2 ∈ departmentNames) := by
  rcases mem_departmentNames.mp hd with h | h | h | h | h <;> subst h
  · exact ⟨schedule.take 0, schedule.drop 1, by rw [schedule_eq]; rfl, by decide, by decide⟩
  · exact ⟨schedule.take 1, schedule.drop 2, by rw [schedule_eq]; rfl, by decide, by decide⟩
  · exact ⟨schedule.take 2, schedule.drop 3, by rw [schedule_eq]; rfl, by decide, by decide⟩
  · exact ⟨schedule.take 3, schedule.drop 4, by rw [schedule_eq]; rfl, by decide, by decide⟩
  · exact ⟨schedule.take 4, schedule.drop 5, by rw [schedule_eq]; rfl, by decide, by decide⟩

theorem assignDepartments_settled {max : Int} (hmax : 0 ≤ max) {d : depName}
    (hd : d ∈ departmentNames) {pool : applications} (h3 : threePreferences pool)
    (hu : allUnassigned pool) :
    ∃ final, assignDepartments max pool = some final ∧ Evolves pool final ∧
      firstChoiceSettled max d final := by
  obtain ⟨pre, post, hsplit, hpre, hpost⟩ := schedule_split hd
  obtain ⟨s1, hrun1, h31, hopen⟩ := foldlM_invariant
    (fun pool p => departmentPass max p.1 pool p.2)
    (fun s => threePreferences s ∧ firstChoiceOpen d s) pre
    (by
      intro s p hp hs
      obtain ⟨hp0, hpm, hpne⟩ := hpre p hp
      have := pass_firstChoiceOpen max hpm hpne hs.1 hs.2
      rwa [← hp0] at this)
    pool ⟨h3, firstChoiceOpen_of_allUnassigned hd hu⟩
  obtain ⟨s2, hrun2, h32, hset⟩ := pass_firstChoiceSettled hmax hd h31 hopen
  obtain ⟨final, hrun3, -, hfinal⟩ := foldlM_invariant
    (fun pool p => departmentPass max p.1 pool p.2)
    (fun s => threePreferences s ∧ firstChoiceSettled max d s) post
    (by
      intro s p hp hs
      exact pass_keeps_settled max hd (hpost p hp) hs.1 hs.2)
    s2 ⟨h32, hset⟩
  have hall : runPasses max schedule pool = some final := by
    rw [hsplit, runPasses_append]
    have h1 : runPasses max pre pool = some s1 := hrun1
    rw [h1]
    simp only [Option.some_bind, runPasses, List.foldlM_cons, hrun2, Option.bind_eq_bind]
    exact hrun3
  obtain ⟨final', hrun', -, hev⟩ :=
    runPasses_evolves max schedule (fun p hp => mem_schedule_iff.mp hp) h3
  rw [hall] at hrun'
  cases hrun'
  exact ⟨final, by rw [assignDepartments_eq_runPasses]; exact hall, hev, hfinal⟩


theorem countP_lt_countP {p q : application → Bool} :
    ∀ {l : applications}, (∀ x ∈ l, p x = true → q x = true) →
      ∀ a ∈ l, q a = true → p a = false → l.countP p < l.countP q := by
  intro l
  induction l with
  | nil => intro _ a ha; simp at ha
  | cons y ys ih =>
    intro hpq a ha hqa hpa
    have hpq' : ∀ x ∈ ys, p x = true → q x = true :=
      fun x hx => hpq x (List.mem_cons_of_mem _ hx)
    have hmono : ys.countP p ≤ ys.countP q := List.countP_mono_left hpq'
    rw [List.countP_cons, List.countP_cons]
    rcases List.mem_cons.mp ha with rfl | ha'
    · simp only [hqa, hpa, if_true, Bool.false_eq_true, if_false]
      omega
    · have hlt := ih hpq' a ha' hqa hpa
      by_cases hy : p y = true
      · have hq : q y = true := hpq y (List.mem_cons_self _ _) hy
        rw [if_pos hy, if_pos hq]
        omega
      · rw [if_neg hy]
        split <;> omega

theorem evolves_countP_departments {p q : applications} (h : Evolves p q)
    (f : List depName → Bool) :
    q.countP (fun a => f a.departments) = p.countP (fun a => f a.departments) := by
  have hperm := h.map_record
  have h1 := hperm.countP_eq (fun a => f a.departments)
  rw [List.countP_map, List.countP_map] at h1
  exact h1

/-- C16 (first-choice priority without justified envy). For a pool of unassigned
applicants with three preferences each, a capacity `max ≥ 0` and a department `d` of
the five: `assignDepartments` returns a final pool in which, whenever an applicant
with `departments[0] = d` is not assigned to `d`, exactly `max` applicants are
assigned to `d`, each of them has `d` as first preference and is ranked at or before
that applicant (greater `d`-score, or equal `d`-score and full name not greater).
Corollary: if at most `max` applicants of the pool list `d` first, each of them is
assigned to `d`. -/
theorem first_choice_priority (max : Int) (hmax : 0 ≤ max) (pool : applications)
    (h3 : threePreferences pool) (hu : allUnassigned pool) (d : depName)
    (hd : d ∈ departmentNames) :
    ∃ final, assignDepartments max pool = some final ∧
      (∀ a ∈ final, a.departments[0]? = some d → a.assignedDepartment ≠ d →
        (countAssigned final d : Int) = max ∧
          ∀ x ∈ final, x.assignedDepartment = d →
            x.departments[0]? = some d ∧
              (specScore d x > specScore d a ∨
                (specScore d x = specScore d a ∧
                  x.name.getFullName ≤ a.name.getFullName))) ∧
      (((pool.countP (fun a => decide (a.departments[0]? = some d)) : Nat) : Int) ≤ max →
        ∀ a ∈ final, a.departments[0]? = some d → a.assignedDepartment = d) := by
  obtain ⟨final, hrun, hev, hset⟩ := assignDepartments_settled hmax hd h3 hu
  refine ⟨final, hrun, ?_, ?_⟩
  · intro a ha hpref hna
    obtain ⟨hcount, hall⟩ := hset a ha hpref hna
    refine ⟨hcount, fun x hx hxd => ?_⟩
    obtain ⟨h1, h2, h3'⟩ := hall x hx hxd
    refine ⟨h1, ?_⟩
    rcases lt_or_eq_of_le h2 with hlt | heq
    · exact Or.inl hlt
    · exact Or.inr ⟨heq.symm, h3' heq.symm⟩
  · intro hfew a ha hpref
    by_contra hna
    obtain ⟨hcount, hall⟩ := hset a ha hpref hna
    have hlt : final.countP (fun x => decide (x.assignedDepartment = d)) <
        final.countP (fun x => decide (x.departments[0]? = some d)) := by
      refine countP_lt_countP ?_ a ha (by simpa using hpref) (by simpa using hna)
      intro x hx hxd
      have := (hall x hx (by simpa using hxd)).1
      simpa using this
    have hsame := evolves_countP_departments hev (fun l => decide (l[0]? = some d))
    rw [hsame, ← countAssigned_eq_countP] at hlt
    have : (countAssigned final d : Int) <
        ((pool.countP (fun a => decide (a.departments[0]? = some d)) : Nat) : Int) := by
      exact_mod_cast hlt
    omega

theorem first_choice_priority_witness :
    (0 : Int) ≤ 1 ∧ threePreferences examplePool ∧ allUnassigned examplePool ∧
      physDepName ∈ departmentNames ∧
      ∃ final, assignDepartments 1 examplePool = some final ∧
        (∀ a ∈ final, a.departments[0]? = some physDepName →
          a.assignedDepartment ≠ physDepName →
          (countAssigned final physDepName : Int) = 1 ∧
            ∀ x ∈ final, x.assignedDepartment = physDepName →
              x.departments[0]? = some physDepName ∧
                (specScore physDepName x > specScore physDepName a ∨
                  (specScore physDepName x = specScore physDepName a ∧
                    x.name.getFullName ≤ a.name.getFullName))) ∧
        (((examplePool.countP (fun a => decide (a.departments[0]? = some physDepName)) : Nat)
            : Int) ≤ 1 →
          ∀ a ∈ final, a.departments[0]? = some physDepName →
            a.assignedDepartment = physDepName) :=
  ⟨by decide, examplePool_three, examplePool_unassigned, by decide,
    first_choice_priority 1 (by decide) examplePool examplePool_three examplePool_unassigned
      physDepName (by decide)⟩


/-! Department passes of one flow commute -/

theorem departmentPass_eq_passResult (max : Int) {flow : Nat} {dep : depName}
    (hf : flow < 3) (hd : dep ∈ departmentNames) {pool : applications}
    (h3 : threePreferences pool) :
    departmentPass max flow pool dep = some (passResult max flow dep pool) :=
  departmentPass_eq_assignBest max (ne_noneName_of_mem hd) (flow_lt_of_three h3 hf)

theorem passResult_evolves (max : Int) {flow : Nat} {dep : depName} (hf : flow < 3)
    (hd : dep ∈ departmentNames) {pool : applications} (h3 : threePreferences pool) :
    threePreferences (passResult max flow dep pool) ∧
      Evolves pool (passResult max flow dep pool) ∧
      List.Forall₂ (Assigns flow dep) (applications.sort pool dep)
        (passResult max flow dep pool) := by
  obtain ⟨pool', hrun, h3', hev, hrel⟩ := pass_evolves max (p := (flow, dep)) ⟨hf, hd⟩ h3
  have h := departmentPass_eq_passResult max hf hd h3
  have hrun' : departmentPass max flow pool dep = some pool' := hrun
  rw [hrun'] at h
  cases h
  exact ⟨h3', hev, hrel⟩

theorem remaining_perm {p q : applications} (h : p.Perm q) (max : Int) (dep : depName) :
    remaining max p dep = remaining max q dep := by
  unfold remaining
  rw [countAssigned_perm h dep]

theorem passResult_perm (max : Int) (flow : Nat) {dep : depName} (hd : dep ∈ departmentNames)
    {p q : applications} (h : p.Perm q) (hn : distinctNames p) :
    passResult max flow dep p = passResult max flow dep q := by
  unfold passResult
  rw [sort_eq_of_perm hd h hn, remaining_perm h]

theorem selectBest_perm {dep : depName} (hd : dep ∈ departmentNames) (r : Nat)
    {p q : applications} (h : p.Perm q) (hn : distinctNames p) :
    selectBest dep r p = selectBest dep r q := by
  unfold selectBest
  rw [sort_eq_of_perm hd h hn]

/-- The multiset of a pass result: the selection among the eligible applicants,
together with all other applicants unchanged. -/
theorem passResult_decompose (max : Int) (flow : Nat) {dep : depName}
    (hd : dep ∈ departmentNames) (pool : applications) :
    (passResult max flow dep pool).Perm
      (selectBest dep (remaining max pool dep) (pool.filter (eligible flow dep)) ++
        pool.filter (fun a => !eligible flow dep a)) := by
  unfold passResult selectBest
  refine (assignBest_perm flow dep _ _).trans ?_
  rw [sort_filter hd]
  exact List.Perm.append_left _ ((sort_perm pool dep).filter _)

theorem distinctNames_sublist {p q : applications} (h : p.Sublist q) (hq : distinctNames q) :
    distinctNames p :=
  (h.map _).nodup hq


theorem passResult_count_other (max : Int) {flow : Nat} {dep other : depName} (hf : flow < 3)
    (hd : dep ∈ departmentNames) (ho : other ∈ departmentNames) (hne : other ≠ dep)
    {pool : applications} (h3 : threePreferences pool) :
    countAssigned (passResult max flow dep pool) other = countAssigned pool other := by
  obtain ⟨-, -, hrel⟩ := passResult_evolves max hf hd h3
  rw [Assigns.count_eq hrel hne (ne_noneName_of_mem ho),
    countAssigned_perm (sort_perm pool dep) other]

theorem eligible_other {flow : Nat} {dep other : depName} (hne : other ≠ dep)
    {a : application} (h : eligible flow dep a = true) : eligible flow other a = false := by
  rw [Bool.eq_false_iff]
  intro ho
  have h1 := (eligible_iff.mp h).2
  have h2 := (eligible_iff.mp ho).2
  rw [h1] at h2
  exact hne (Option.some.inj h2).symm

/-- Nobody of the selection for `dep` is eligible for another department. -/
theorem selectBest_not_eligible {flow : Nat} {dep other : depName}
    (hd : dep ∈ departmentNames) (hne : other ≠ dep) (r : Nat) {cands : applications}
    (hc : ∀ a ∈ cands, eligible flow dep a = true) :
    ∀ b ∈ selectBest dep r cands, eligible flow other b = false := by
  intro b hb
  unfold selectBest at hb
  rcases List.mem_append.mp hb with hb | hb
  · obtain ⟨a, -, rfl⟩ := List.mem_map.mp hb
    rw [Bool.eq_false_iff]
    intro ho
    exact ne_noneName_of_mem hd (eligible_iff.mp ho).1
  · exact eligible_other hne (hc b (mem_sort.mp (List.mem_of_mem_drop hb)))

theorem filter_eq_nil_of_false {p : application → Bool} {l : applications}
    (h : ∀ b ∈ l, p b = false) : l.filter p = [] := by
  rw [List.filter_eq_nil_iff]
  intro b hb
  simp [h b hb]

theorem filter_eq_self_of_false {p : application → Bool} {l : applications}
    (h : ∀ b ∈ l, p b = false) : l.filter (fun a => !p a) = l := by
  rw [List.filter_eq_self]
  intro b hb
  simp [h b hb]

/-- Two passes of different departments in the same flow, as a multiset: both
selections, and everybody eligible for neither unchanged. -/
theorem passResult_twice (max : Int) {flow : Nat} {d d' : depName} (hf : flow < 3)
    (hd : d ∈ departmentNames) (hd' : d' ∈ departmentNames) (hne : d' ≠ d)
    {pool : applications} (h3 : threePreferences pool) (hn : distinctNames pool) :
    (passResult max flow d' (passResult max flow d pool)).Perm
      (selectBest d' (remaining max pool d') (pool.filter (eligible flow d')) ++
        (selectBest d (remaining max pool d) (pool.filter (eligible flow d)) ++
          pool.filter (fun a => !eligible flow d a && !eligible flow d' a))) := by
  obtain ⟨-, hev, -⟩ := passResult_evolves max hf hd h3
  have hnt : distinctNames (passResult max flow d pool) := evolves_distinctNames hev hn
  have hdec := passResult_decompose max flow hd pool
  have hsel : ∀ b ∈ selectBest d (remaining max pool d) (pool.filter (eligible flow d)),
      eligible flow d' b = false :=
    selectBest_not_eligible hd hne _ (fun a ha => (List.mem_filter.mp ha).2)
  -- the applicants eligible for `d'` after the pass of `d`
  have helig : ((passResult max flow d pool).filter (eligible flow d')).Perm
      (pool.filter (eligible flow d')) := by
    refine (hdec.filter _).trans ?_
    rw [List.filter_append, filter_eq_nil_of_false hsel, List.nil_append, List.filter_filter]
    refine List.Perm.of_eq (List.filter_congr ?_)
    intro a _
    by_cases ha : eligible flow d' a = true
    · simp [ha, eligible_other (Ne.symm hne) ha]
    · simp [ha]
  -- everybody else after the pass of `d`
  have hrest : ((passResult max flow d pool).filter (fun a => !eligible flow d' a)).Perm
      (selectBest d (remaining max pool d) (pool.filter (eligible flow d)) ++
        pool.filter (fun a => !eligible flow d a && !eligible flow d' a)) := by
    refine (hdec.filter _).trans ?_
    rw [List.filter_append, filter_eq_self_of_false hsel, List.filter_filter]
    refine List.Perm.of_eq ?_
    congr 1
    refine List.filter_congr ?_
    intro a _
    exact Bool.and_comm _ _
  have hrem : remaining max (passResult max flow d pool) d' = remaining max pool d' := by
    unfold remaining
    rw [passResult_count_other max hf hd hd' hne h3]
  refine (passResult_decompose max flow hd' _).trans ?_
  rw [hrem, selectBest_perm hd' _ helig
    (distinctNames_sublist (List.filter_sublist _) hnt)]
  exact List.Perm.append_left _ hrest

theorem passResult_comm (max : Int) {flow : Nat} {d d' : depName} (hf : flow < 3)
    (hd : d ∈ departmentNames) (hd' : d' ∈ departmentNames) (hne : d' ≠ d)
    {pool : applications} (h3 : threePreferences pool) (hn : distinctNames pool) :
    (passResult max flow d' (passResult max flow d pool)).Perm
      (passResult max flow d (passResult max flow d' pool)) := by
  refine (passResult_twice max hf hd hd' hne h3 hn).trans ?_
  refine List.Perm.trans ?_ (passResult_twice max hf hd' hd (Ne.symm hne) h3 hn).symm
  have hfilter : pool.filter (fun a => !eligible flow d a && !eligible flow d' a) =
      pool.filter (fun a => !eligible flow d' a && !eligible flow d a) :=
    List.filter_congr (fun a _ => Bool.and_comm _ _)
  rw [hfilter, ← List.append_assoc, ← List.append_assoc]
  exact List.Perm.append_right _ List.perm_append_comm


theorem flowResult_invariant (max : Int) {flow : Nat} (hf : flow < 3) :
    ∀ (order : List depName), (∀ d ∈ order, d ∈ departmentNames) →
      ∀ pool : applications, threePreferences pool → distinctNames pool →
        threePreferences (flowResult max flow order pool) ∧
          distinctNames (flowResult max flow order pool) := by
  intro order
  induction order with
  | nil => intro _ pool h3 hn; exact ⟨h3, hn⟩
  | cons d ds ih =>
    intro ho pool h3 hn
    obtain ⟨h3', hev, -⟩ := passResult_evolves max hf (ho d (List.mem_cons_self _ _)) h3
    exact ih (fun x hx => ho x (List.mem_cons_of_mem _ hx)) _ h3' (evolves_distinctNames hev hn)

/-- The same order of visit on two arrangements of a pool. -/
theorem flowResult_perm_pool (max : Int) {flow : Nat} (hf : flow < 3) :
    ∀ (order : List depName), (∀ d ∈ order, d ∈ departmentNames) →
      ∀ p q : applications, p.Perm q → threePreferences p → distinctNames p →
        (flowResult max flow order p).Perm (flowResult max flow order q) := by
  intro order
  induction order with
  | nil => intro _ p q h _ _; exact h
  | cons d ds ih =>
    intro ho p q h h3 hn
    have hd := ho d (List.mem_cons_self _ _)
    obtain ⟨h3', hev, -⟩ := passResult_evolves max hf hd h3
    have heq : passResult max flow d p = passResult max flow d q := passResult_perm max flow hd h hn
    show (flowResult max flow ds (passResult max flow d p)).Perm
      (flowResult max flow ds (passResult max flow d q))
    rw [← heq]

/-- Two orders of visit that are permutations of one another. -/
theorem flowResult_perm_order (max : Int) {flow : Nat} (hf : flow < 3)
    {order order' : List depName} (horder : order.Perm order') :
    (∀ d ∈ order, d ∈ departmentNames) →
      ∀ p q : applications, p.Perm q → threePreferences p → distinctNames p →
        (flowResult max flow order p).Perm (flowResult max flow order' q) := by
  induction horder with
  | nil => intro _ p q h _ _; exact h
  | @cons d l l' _ ih =>
    intro ho p q h h3 hn
    have hd := ho d (List.mem_cons_self _ _)
    obtain ⟨h3', hev, -⟩ := passResult_evolves max hf hd h3
    have heq : passResult max flow d p = passResult max flow d q := passResult_perm max flow hd h hn
    show (flowResult max flow l (passResult max flow d p)).Perm
      (flowResult max flow l' (passResult max flow d q))
    rw [← heq]
    exact ih (fun x hx => ho x (List.mem_cons_of_mem _ hx)) _ _ (List.Perm.refl _) h3'
      (evolves_distinctNames hev hn)
  | swap x y l =>
    intro ho p q h h3 hn
    have hy := ho y (List.mem_cons_self _ _)
    have hx := ho x (List.mem_cons_of_mem _ (List.mem_cons_self _ _))
    have hl : ∀ d ∈ l, d ∈ departmentNames :=
      fun d hd => ho d (List.mem_cons_of_mem _ (List.mem_cons_of_mem _ hd))
    show (flowResult max flow l (passResult max flow x (passResult max flow y p))).Perm
      (flowResult max flow l (passResult max flow y (passResult max flow x q)))
    obtain ⟨h3y, hevy, -⟩ := passResult_evolves max hf hy h3
    obtain ⟨h3xy, hevxy, -⟩ := passResult_evolves max hf hx h3y
    have hnxy : distinctNames (passResult max flow x (passResult max flow y p)) :=
      evolves_distinctNames hevxy (evolves_distinctNames hevy hn)
    have h3q : threePreferences q := fun a ha => h3 a (h.symm.subset ha)
    have hswap : (passResult max flow x (passResult max flow y p)).Perm
        (passResult max flow y (passResult max flow x q)) := by
      have hpq : passResult max flow x p = passResult max flow x q :=
        passResult_perm max flow hx h hn
      rw [← hpq]
      by_cases hxy : x = y
      · subst hxy; exact List.Perm.refl _
      · exact passResult_comm max hf hy hx hxy h3 hn
    exact flowResult_perm_pool max hf l hl _ _ hswap h3xy hnxy
  | @trans l₁ l₂ l₃ h12 _ ih1 ih2 =>
    intro ho p q h h3 hn
    have ho2 : ∀ d ∈ l₂, d ∈ departmentNames := fun d hd => ho d (h12.symm.subset hd)
    exact (ih1 ho p p (List.Perm.refl p) h3 hn).trans (ih2 ho2 p q h h3 hn)

theorem assignDepartmentsByFlowIn_eq (max : Int) {flow : Nat} (hf : flow < 3) :
    ∀ (order : List depName), (∀ d ∈ order, d ∈ departmentNames) →
      ∀ pool : applications, threePreferences pool →
        assignDepartmentsByFlowIn order max flow pool =
          some (flowResult max flow order pool) := by
  intro order
  induction order with
  | nil => intro _ pool _; rfl
  | cons d ds ih =>
    intro ho pool h3
    have hd := ho d (List.mem_cons_self _ _)
    obtain ⟨h3', -, -⟩ := passResult_evolves max hf hd h3
    have hstep := departmentPass_eq_passResult max hf hd h3
    have hrest := ih (fun x hx => ho x (List.mem_cons_of_mem _ hx)) _ h3'
    unfold assignDepartmentsByFlowIn at hrest ⊢
    rw [List.foldlM_cons, hstep]
    simpa [flowResult] using hrest


theorem assignDepartmentsIn_eq (max : Int) (orders : Nat → List depName)
    (horders : ∀ k, ∀ d ∈ orders k, d ∈ departmentNames) {pool : applications}
    (h3 : threePreferences pool) (hn : distinctNames pool) :
    assignDepartmentsIn orders max pool =
      some (flowResult max 2 (orders 2)
        (flowResult max 1 (orders 1) (flowResult max 0 (orders 0) pool))) := by
  obtain ⟨h30, hn0⟩ := flowResult_invariant max (show 0 < 3 by decide) (orders 0) (horders 0)
    pool h3 hn
  obtain ⟨h31, -⟩ := flowResult_invariant max (show 1 < 3 by decide) (orders 1) (horders 1)
    _ h30 hn0
  simp only [assignDepartmentsIn, show List.range 3 = [0, 1, 2] from rfl, List.foldlM_cons,
    List.foldlM_nil,
    assignDepartmentsByFlowIn_eq max (show 0 < 3 by decide) (orders 0) (horders 0) pool h3,
    Option.bind_eq_bind, Option.some_bind,
    assignDepartmentsByFlowIn_eq max (show 1 < 3 by decide) (orders 1) (horders 1) _ h30,
    assignDepartmentsByFlowIn_eq max (show 2 < 3 by decide) (orders 2) (horders 2) _ h31]
  rfl

theorem assignDepartments_eq_in (max : Int) (pool : applications) :
    assignDepartments max pool = assignDepartmentsIn (fun _ => departmentNames) max pool :=
  rfl

/-- C18 (department passes of one flow commute). For a pool with pairwise distinct
full names and three preferences each (in particular an initially unassigned one) and
every capacity: if in each flow the five departments are visited in any order that is
a permutation of the fixed order, the run returns a final pool that is a permutation
of the final pool of `assignDepartments`, so every applicant, identified by full name,
has the same final department. -/
theorem passes_commute (max : Int) (pool : applications) (h3 : threePreferences pool)
    (hn : distinctNames pool) (orders : Nat → List depName)
    (horders : ∀ k, (orders k).Perm departmentNames) :
    ∃ final final', assignDepartments max pool = some final ∧
      assignDepartmentsIn orders max pool = some final' ∧ final'.Perm final ∧
      ∀ a ∈ final, ∀ b ∈ final', a.name.getFullName = b.name.getFullName →
        a.assignedDepartment = b.assignedDepartment := by
  have hmem : ∀ k, ∀ d ∈ orders k, d ∈ departmentNames :=
    fun k d hd => (horders k).subset hd
  have hfix : ∀ k : Nat, ∀ d ∈ (fun _ : Nat => departmentNames) k, d ∈ departmentNames :=
    fun _ d hd => hd
  have f0 : (0 : Nat) < 3 := by decide
  have f1 : (1 : Nat) < 3 := by decide
  have f2 : (2 : Nat) < 3 := by decide
  -- flow 0
  have p0 := flowResult_perm_order max f0 (horders 0) (hmem 0) pool pool (List.Perm.refl _) h3 hn
  obtain ⟨h30, hn0⟩ := flowResult_invariant max f0 (orders 0) (hmem 0) pool h3 hn
  -- flow 1
  have p1 := flowResult_perm_order max f1 (horders 1) (hmem 1) _ _ p0 h30 hn0
  obtain ⟨h31, hn1⟩ := flowResult_invariant max f1 (orders 1) (hmem 1) _ h30 hn0
  -- flow 2
  have p2 := flowResult_perm_order max f2 (horders 2) (hmem 2) _ _ p1 h31 hn1
  obtain ⟨-, hn2⟩ := flowResult_invariant max f2 (orders 2) (hmem 2) _ h31 hn1
  refine ⟨_, _, ?_, assignDepartmentsIn_eq max orders hmem h3 hn, p2, ?_⟩
  · rw [assignDepartments_eq_in]
    exact assignDepartmentsIn_eq max (fun _ => departmentNames) hfix h3 hn
  · intro a ha b hb hab
    have ha' := p2.symm.subset ha
    rw [eq_of_fullName_eq hn2 ha' hb hab]

theorem passes_commute_witness :
    threePreferences examplePool ∧ distinctNames examplePool ∧
      (∀ k : Nat, ((fun _ : Nat => departmentNames.reverse) k).Perm departmentNames) ∧
      ∃ final final', assignDepartments 1 examplePool = some final ∧
        assignDepartmentsIn (fun _ => departmentNames.reverse) 1 examplePool = some final' ∧
        final'.Perm final ∧
        ∀ a ∈ final, ∀ b ∈ final', a.name.getFullName = b.name.getFullName →
          a.assignedDepartment = b.assignedDepartment :=
  ⟨examplePool_three, examplePool_distinct, fun _ => List.reverse_perm _,
    passes_commute 1 examplePool examplePool_three examplePool_distinct
      (fun _ => departmentNames.reverse) (fun _ => List.reverse_perm _)⟩

end Admission
